import Mathlib

/-!
# goscore: GradientBoostedModel scoring

Shallow embedding of `gradient_boosted_model.go`:
`fetchConst`, `GradientBoostedModel.Score` and
`GradientBoostedModel.ScoreConcurrently`.

* `float64` is modelled by `F64`: IEEE 754 binary64 values with the
  round-to-nearest-even rounding of `+` and `/` made explicit.
* `math.Exp` belongs to the Go standard library; it is the parameter `exp`.
* `Node.TraverseTree` is defined in another file of the package; it is the
  parameter `TraverseTree`.
* The goroutines of `ScoreConcurrently` are modelled by the content of the
  channel `messages` after `wg.Wait()`, in arrival order.
-/

namespace Goscore

/-! ## float64 -/

/-- Values of a Go `float64`: NaN, the two infinities, negative zero, and the
finite values with their rational value (`fin 0` is positive zero). -/
inductive F64 where
  | nan : F64
  | inf (neg : Bool) : F64
  | negZero : F64
  | fin (q : ℚ) : F64
  deriving DecidableEq

namespace F64

/-- Floor of the base-2 logarithm of a natural number, by repeated halving
(`fuel` bounds the number of halvings). -/
def log2Aux : Nat → Nat → Nat
  | 0, _ => 0
  | fuel + 1, n => if n < 2 then 0 else log2Aux fuel (n / 2) + 1

/-- Floor of the base-2 logarithm of a natural number (`0` at `0`). -/
def natLog2 (n : Nat) : Nat := log2Aux n n

/-- Floor of the base-2 logarithm of `|q|`, for `q ≠ 0`. -/
def ilog2 (q : ℚ) : ℤ :=
  let a : ℤ := (natLog2 q.num.natAbs : ℤ) - (natLog2 q.den : ℤ)
  if (2 : ℚ) ^ a ≤ |q| then a else a - 1

/-- Nearest integer, ties to the even one. -/
def roundHalfEven (x : ℚ) : ℤ :=
  let f : ℤ := ⌊x⌋
  let r : ℚ := x - f
  if r < 1 / 2 then f
  else if 1 / 2 < r then f + 1
  else if f % 2 = 0 then f else f + 1

/-- Exponent of the unit in the last place of the binary64 binade holding `q`:
53 significant bits, and the subnormal floor `2 ^ (-1074)`. -/
def ulpExp (q : ℚ) : ℤ := max (ilog2 q - 52) (-1074)

/-- Rounding of an exact rational result to binary64, round-to-nearest-even:
overflow gives an infinity, underflow a zero of the sign of `q`. -/
def rne (q : ℚ) : F64 :=
  if q = 0 then fin 0
  else
    let u : ℚ := (2 : ℚ) ^ ulpExp q
    let v : ℚ := (roundHalfEven (q / u) : ℚ) * u
    if (2 : ℚ) ^ (1024 : ℤ) ≤ |v| then inf (decide (q < 0))
    else if v = 0 then (if q < 0 then negZero else fin 0)
    else fin v

/-- Sign bit of a value that is not NaN. -/
def signBit : F64 → Bool
  | nan => false
  | inf neg => neg
  | negZero => true
  | fin q => decide (q < 0)

/-- Zero with the given sign bit. -/
def zero (neg : Bool) : F64 := if neg then negZero else fin 0

/-- Whether the value is one of the two zeros. -/
def isZero : F64 → Bool
  | negZero => true
  | fin q => decide (q = 0)
  | _ => false

/-- Go `x + y` on float64 (IEEE 754 addition, round-to-nearest-even). -/
def add : F64 → F64 → F64
  | nan, _ => nan
  | _, nan => nan
  | inf a, inf b => if a = b then inf a else nan
  | inf a, _ => inf a
  | _, inf b => inf b
  | negZero, negZero => negZero
  | negZero, fin b => rne b
  | fin a, negZero => rne a
  | fin a, fin b => rne (a + b)

/-- Go `x / y` on float64 (IEEE 754 division, round-to-nearest-even). -/
def div : F64 → F64 → F64
  | nan, _ => nan
  | _, nan => nan
  | inf _, inf _ => nan
  | inf a, y => inf (xor a y.signBit)
  | x, inf b => zero (xor x.signBit b)
  | x, negZero => if x.isZero then nan else inf (xor x.signBit true)
  | negZero, fin b => if b = 0 then nan else zero (xor true (decide (b < 0)))
  | fin a, fin b =>
    if b = 0 then (if a = 0 then nan else inf (decide (a < 0)))
    else if a = 0 then zero (decide (b < 0))
    else rne (a / b)

/-- A finite value is a binary64 value when rounding leaves it unchanged. -/
def IsFloat : F64 → Prop
  | fin q => rne q = fin q
  | _ => True

instance (x : F64) : Decidable (IsFloat x) := by
  cases x <;> unfold IsFloat <;> infer_instance

end F64

/-! ## The model and the two scoring strategies -/

/-- Go `xml.Name`. -/
structure xmlName where
  Space : String
  Local : String
  deriving DecidableEq

/-- Go `target`. -/
structure target where
  XMLName : xmlName
  RescaleConstant : F64
  deriving DecidableEq

/-- Go `GradientBoostedModel`; `Node` is the type of a decision tree. -/
structure GradientBoostedModel (Node : Type) where
  Version : String
  Trees : List Node
  Target : target
  Constant : F64

/-- Go `result`: what one goroutine of `ScoreConcurrently` sends on the
channel. A nil `error` is `none`. -/
structure result (Err : Type) where
  ErrorName : Option Err
  Score : F64
  deriving DecidableEq

/-- Go `fetchConst`: the named result `sum` starts at the zero value. -/
def fetchConst {Node : Type} (gbm : GradientBoostedModel Node) : F64 :=
  if gbm.Version = "4.2" then gbm.Constant
  else if gbm.Version = "4.3" then gbm.Target.RescaleConstant
  else F64.fin 0

/-- The `for _, tree := range gbm.Trees` loop of `Score` followed by its final
`return`, from the running value of `sum`. -/
def Score.range {Node Features Err : Type} (exp : F64 → F64)
    (TraverseTree : Node → Features → F64 × Option Err) (features : Features) :
    List Node → F64 → F64 × Option Err
  | [], sum => (F64.div (exp sum) (F64.add (F64.fin 1) (exp sum)), none)
  | tree :: rest, sum =>
    match TraverseTree tree features with
    | (_, some err) => (F64.fin (-1), some err)
    | (score, none) => Score.range exp TraverseTree features rest (F64.add sum score)

/-- Go `GradientBoostedModel.Score`. -/
def Score {Node Features Err : Type} (exp : F64 → F64)
    (TraverseTree : Node → Features → F64 × Option Err)
    (gbm : GradientBoostedModel Node) (features : Features) : F64 × Option Err :=
  Score.range exp TraverseTree features gbm.Trees (fetchConst gbm)

/-- The results sent by the goroutines of `ScoreConcurrently`, one per tree,
listed in the order of `gbm.Trees`. -/
def ScoreConcurrently.sent {Node Features Err : Type}
    (TraverseTree : Node → Features → F64 × Option Err) (features : Features)
    (trees : List Node) : List (result Err) :=
  trees.map fun tree =>
    match TraverseTree tree features with
    | (treeScore, err) => { ErrorName := err, Score := treeScore }

/-- The content of the channel after `wg.Wait()`: every goroutine has sent its
result, in some order. -/
def Arrival {Node Features Err : Type}
    (TraverseTree : Node → Features → F64 × Option Err) (features : Features)
    (gbm : GradientBoostedModel Node) (messages : List (result Err)) : Prop :=
  messages.Perm (ScoreConcurrently.sent TraverseTree features gbm.Trees)

/-- The `for i := 0; i < len(gbm.Trees); i++` loop of `ScoreConcurrently`
followed by its final `return`; `n` iterations are left. A receive on the
empty channel never returns (`none`). -/
def ScoreConcurrently.drain {Err : Type} (exp : F64 → F64) :
    Nat → List (result Err) → F64 → Option (F64 × Option Err)
  | 0, _, sum => some (F64.div (exp sum) (F64.add (F64.fin 1) (exp sum)), none)
  | _ + 1, [], _ => none
  | n + 1, res :: messages, sum =>
    match res.ErrorName with
    | some err => some (F64.fin (-1), some err)
    | none => ScoreConcurrently.drain exp n messages (F64.add sum res.Score)

/-- Go `GradientBoostedModel.ScoreConcurrently`, given the channel content
`messages` in arrival order. -/
def ScoreConcurrently {Node Err : Type} (exp : F64 → F64)
    (gbm : GradientBoostedModel Node) (messages : List (result Err)) :
    Option (F64 × Option Err) :=
  ScoreConcurrently.drain exp gbm.Trees.length messages (fetchConst gbm)

/-! ## Vocabulary of the statements -/

/-- The link function `exp(sum) / (1 + exp(sum))` in float64. -/
def logistic (exp : F64 → F64) (sum : F64) : F64 :=
  F64.div (exp sum) (F64.add (F64.fin 1) (exp sum))

/-- Left-to-right float64 accumulation `((c + x₁) + x₂) + ...`. -/
def accumulate (c : F64) (xs : List F64) : F64 := xs.foldl F64.add c

/-- The contributions of the trees, in the order of the list. -/
def contributions {Node Features Err : Type}
    (TraverseTree : Node → Features → F64 × Option Err) (features : Features)
    (trees : List Node) : List F64 :=
  trees.map fun tree => (TraverseTree tree features).1

/-- Every tree of the list is traversed without error. -/
def AllSucceed {Node Features Err : Type}
    (TraverseTree : Node → Features → F64 × Option Err) (features : Features)
    (trees : List Node) : Prop :=
  ∀ tree ∈ trees, (TraverseTree tree features).2 = none

/-- The value is finite and strictly between 0 and 1. -/
def InUnit (v : F64) : Prop := ∃ z : ℚ, v = F64.fin z ∧ 0 < z ∧ z < 1

/-- What `exp` returns is a positive finite binary64 value `x` that `1 + x`
does not round back to. -/
def Regular (v : F64) : Prop :=
  ∃ x : ℚ, v = F64.fin x ∧ 0 < x ∧ (F64.fin x).IsFloat
    ∧ F64.add (F64.fin 1) (F64.fin x) ≠ F64.fin x

/-- Rational value of a finite float64 (`0` elsewhere). -/
def F64.toRat : F64 → ℚ
  | F64.fin q => q
  | _ => 0

/-- The accumulation `((c + x₁) + x₂) + ...` involves finite values only and
its float64 result is the exact rational total. -/
def SumsExactly (c : F64) (xs : List F64) : Prop :=
  ∃ (q : ℚ) (qs : List ℚ), c = F64.fin q ∧ xs = qs.map F64.fin
    ∧ accumulate c xs = F64.fin (q + qs.sum)

/-- What `exp` returns is finite and within `1e-9` of `2.459603111`, the value
of `e ^ 0.9` to nine decimals. -/
def NearExp09 (v : F64) : Prop :=
  ∃ x : ℚ, v = F64.fin x ∧ 2459603110 / 1000000000 ≤ x ∧ x ≤ 2459603112 / 1000000000

/-- The value is finite and within `1e-9` of `0.7109495026`. -/
def NearSpecScore (v : F64) : Prop :=
  ∃ z : ℚ, v = F64.fin z ∧ |z - 7109495026 / 10000000000| ≤ 1 / 1000000000

/-! ## Instances for the examples

`TraverseTree` and `exp` are parameters of the embedding. The examples
instantiate them with trees whose traversal outcome is given, and with a
reference exponential. -/

/-- A tree given by the outcome of its traversal. -/
abbrev FixedTree : Type := F64 × Option String

/-- Traversal of a `FixedTree`: the given outcome, whatever the features. -/
def FixedTree.TraverseTree (tree : FixedTree) (_ : Unit) : F64 × Option String := tree

/-- Horner evaluation of `1 + q / k * (1 + q / (k + 1) * (...))`, `fuel` terms deep. -/
def expHorner (q : ℚ) : Nat → Nat → ℚ
  | 0, _ => 1
  | fuel + 1, k => 1 + q / k * expHorner q fuel (k + 1)

/-- Partial sum of the exponential series up to `q ^ n / n!`. -/
def expSeries (q : ℚ) (n : Nat) : ℚ := expHorner q n 1

/-- Reference exponential on float64, standing for `math.Exp` in the examples:
the special cases of `math.Exp` (NaN, the infinities, overflow to `+Inf`,
underflow to `0`), and elsewhere the rounding of a 30-term series evaluated
after halving the argument `k` times and squared back `k` times. -/
def expRef : F64 → F64
  | F64.nan => F64.nan
  | F64.inf neg => if neg then F64.fin 0 else F64.inf false
  | F64.negZero => F64.fin 1
  | F64.fin q =>
    if 710 < q then F64.inf false
    else if q < -746 then F64.fin 0
    else
      let k : Nat := (F64.ilog2 q + 2).toNat
      F64.rne (expSeries (q / 2 ^ k) 30 ^ 2 ^ k)

/-- The `Target` element of the example models. -/
def exampleTarget (rescaleConstant : F64) : target :=
  { XMLName := { Space := "", Local := "Target" }, RescaleConstant := rescaleConstant }

/-- One tree contributing `0.5`, version `"4.2"`, constant `0`. -/
def singleTree : GradientBoostedModel FixedTree :=
  { Version := "4.2", Trees := [(F64.fin (1 / 2), none)],
    Target := exampleTarget (F64.fin 3), Constant := F64.fin 0 }

/-- Three trees, the second of which fails with `MissingFeature`. -/
def singleFailure : GradientBoostedModel FixedTree :=
  { Version := "4.2",
    Trees := [(F64.fin 1, none), (F64.fin 0, some "MissingFeature"), (F64.fin 2, none)],
    Target := exampleTarget (F64.fin 0), Constant := F64.fin 0 }

/-- Two trees failing with different errors. -/
def twoFailures : GradientBoostedModel FixedTree :=
  { Version := "4.2",
    Trees := [(F64.fin 0, some "MissingFeature"), (F64.fin 0, some "TypeMismatch")],
    Target := exampleTarget (F64.fin 0), Constant := F64.fin 0 }

/-- The example of the specification: version `"4.3"`, rescale constant `0.1`,
two trees contributing `0.5` and `0.3`; the decimal constants are rounded to
float64 as Go rounds them. -/
def specExample (constant : F64) : GradientBoostedModel FixedTree :=
  { Version := "4.3",
    Trees := [(F64.rne (1 / 2), none), (F64.rne (3 / 10), none)],
    Target := exampleTarget (F64.rne (1 / 10)), Constant := constant }

/-- Contributions `1e16`, `1`, `-1e16` with offset `0`: `1e16 + 1` rounds to `1e16`. -/
def cancelModel : GradientBoostedModel FixedTree :=
  { Version := "4.2",
    Trees := [(F64.fin 10000000000000000, none), (F64.fin 1, none),
      (F64.fin (-10000000000000000), none)],
    Target := exampleTarget (F64.fin 0), Constant := F64.fin 0 }

/-- The results of `cancelModel` arriving in the order first, third, second. -/
def cancelArrival : List (result String) :=
  [{ ErrorName := none, Score := F64.fin 10000000000000000 },
    { ErrorName := none, Score := F64.fin (-10000000000000000) },
    { ErrorName := none, Score := F64.fin 1 }]

/-- Contributions `2 ^ 60`, `1`, `-2 ^ 60` with offset `0`: `2 ^ 60 + 1` rounds to `2 ^ 60`. -/
def absorbModel : GradientBoostedModel FixedTree :=
  { Version := "4.3",
    Trees := [(F64.fin (2 ^ 60), none), (F64.fin 1, none), (F64.fin (-2 ^ 60), none)],
    Target := exampleTarget (F64.fin 0), Constant := F64.fin 0 }

/-- The trees of `absorbModel` in the order first, third, second. -/
def absorbPermuted : List FixedTree :=
  [(F64.fin (2 ^ 60), none), (F64.fin (-2 ^ 60), none), (F64.fin 1, none)]

/-- Offset `0.125` and contributions `0.5`, `0.25`, `-1`: every partial sum
is a binary64 value. -/
def exactModel : GradientBoostedModel FixedTree :=
  { Version := "4.2",
    Trees := [(F64.fin (1 / 2), none), (F64.fin (1 / 4), none), (F64.fin (-1), none)],
    Target := exampleTarget (F64.fin 0), Constant := F64.fin (1 / 8) }

/-- The results of `exactModel` arriving in reverse order. -/
def exactArrival : List (result String) :=
  [{ ErrorName := none, Score := F64.fin (-1) },
    { ErrorName := none, Score := F64.fin (1 / 4) },
    { ErrorName := none, Score := F64.fin (1 / 2) }]

/-- The trees of `exactModel` in reverse order. -/
def exactPermuted : List FixedTree :=
  [(F64.fin (-1), none), (F64.fin (1 / 4), none), (F64.fin (1 / 2), none)]

/-- Two trees contributing `400` each, offset `0`. -/
def overflowTwo : GradientBoostedModel FixedTree :=
  { Version := "4.2", Trees := [(F64.fin 400, none), (F64.fin 400, none)],
    Target := exampleTarget (F64.fin 0), Constant := F64.fin 0 }

/-- A model with constant `2` and rescale constant `3`, of the given version. -/
def versionModel (version : String) : GradientBoostedModel FixedTree :=
  { Version := version, Trees := [],
    Target := exampleTarget (F64.fin 3), Constant := F64.fin 2 }

/-- The results of `singleFailure` arriving in reverse order. -/
def singleFailureArrival : List (result String) :=
  [{ ErrorName := none, Score := F64.fin 2 },
    { ErrorName := some "MissingFeature", Score := F64.fin 0 },
    { ErrorName := none, Score := F64.fin 1 }]

/-- The results of `twoFailures` arriving in reverse order. -/
def twoFailuresArrival : List (result String) :=
  [{ ErrorName := some "TypeMismatch", Score := F64.fin 0 },
    { ErrorName := some "MissingFeature", Score := F64.fin 0 }]

/-- The results of `specExample` arriving in tree order. -/
def specArrival : List (result String) :=
  [{ ErrorName := none, Score := F64.rne (1 / 2) },
    { ErrorName := none, Score := F64.rne (3 / 10) }]

/-- The results of `specExample` arriving in reverse order. -/
def specArrivalReversed : List (result String) :=
  [{ ErrorName := none, Score := F64.rne (3 / 10) },
    { ErrorName := none, Score := F64.rne (1 / 2) }]

/-- The results of `overflowTwo`. -/
def overflowArrival : List (result String) :=
  [{ ErrorName := none, Score := F64.fin 400 }, { ErrorName := none, Score := F64.fin 400 }]

/-- One tree contributing `40`, unknown version (offset `0`). -/
def saturateOne : GradientBoostedModel FixedTree :=
  { Version := "", Trees := [(F64.fin 40, none)],
    Target := exampleTarget (F64.fin 0), Constant := F64.fin 0 }

/-- The result of `saturateOne`. -/
def saturateArrival : List (result String) :=
  [{ ErrorName := none, Score := F64.fin 40 }]

/-- One tree contributing `-800`, unknown version (offset `0`). -/
def underflowOne : GradientBoostedModel FixedTree :=
  { Version := "", Trees := [(F64.fin (-800), none)],
    Target := exampleTarget (F64.fin 0), Constant := F64.fin 0 }

/-! ## The two loops -/

section Loops
variable {Node Features Err : Type}

theorem Score.range_of_allSucceed (exp : F64 → F64)
    (TraverseTree : Node → Features → F64 × Option Err) (features : Features) :
    ∀ (trees : List Node) (sum : F64), AllSucceed TraverseTree features trees →
      Score.range exp TraverseTree features trees sum
        = (logistic exp (accumulate sum (contributions TraverseTree features trees)), none)
  | [], sum, _ => rfl
  | tree :: rest, sum, h => by
    have h1 : (TraverseTree tree features).2 = none := h tree (List.mem_cons_self _ _)
    have h2 : AllSucceed TraverseTree features rest :=
      fun t ht => h t (List.mem_cons_of_mem _ ht)
    have ih := Score.range_of_allSucceed exp TraverseTree features rest
      (F64.add sum (TraverseTree tree features).1) h2
    rcases hT : TraverseTree tree features with ⟨score, e⟩
    rw [hT] at h1 ih
    simp only at h1 ih
    subst h1
    simp only [Score.range, hT, ih, contributions, accumulate, List.map_cons, List.foldl_cons]

theorem Score.range_first_error (exp : F64 → F64)
    (TraverseTree : Node → Features → F64 × Option Err) (features : Features)
    (tree : Node) (post : List Node) (err : Err)
    (herr : (TraverseTree tree features).2 = some err) :
    ∀ (pre : List Node) (sum : F64), AllSucceed TraverseTree features pre →
      Score.range exp TraverseTree features (pre ++ tree :: post) sum = (F64.fin (-1), some err)
  | [], sum, _ => by
    rcases hT : TraverseTree tree features with ⟨score, e⟩
    rw [hT] at herr
    simp only at herr
    subst herr
    simp only [List.nil_append, Score.range, hT]
  | t :: pre, sum, h => by
    have h1 : (TraverseTree t features).2 = none := h t (List.mem_cons_self _ _)
    have h2 : AllSucceed TraverseTree features pre :=
      fun t ht => h t (List.mem_cons_of_mem _ ht)
    rcases hT : TraverseTree t features with ⟨score, e⟩
    rw [hT] at h1
    simp only at h1
    subst h1
    simp only [List.cons_append, Score.range, hT]
    exact Score.range_first_error exp TraverseTree features tree post err herr pre _ h2

theorem ScoreConcurrently.drain_of_noError (exp : F64 → F64) :
    ∀ (messages : List (result Err)) (sum : F64),
      (∀ r ∈ messages, r.ErrorName = none) →
      ScoreConcurrently.drain exp messages.length messages sum
        = some (logistic exp (accumulate sum (messages.map result.Score)), none)
  | [], sum, _ => rfl
  | res :: rest, sum, h => by
    have h1 : res.ErrorName = none := h res (List.mem_cons_self _ _)
    have h2 : ∀ r ∈ rest, r.ErrorName = none := fun r hr => h r (List.mem_cons_of_mem _ hr)
    simp only [List.length_cons, ScoreConcurrently.drain, h1, List.map_cons, accumulate,
      List.foldl_cons]
    exact ScoreConcurrently.drain_of_noError exp rest _ h2

theorem ScoreConcurrently.drain_first_error (exp : F64 → F64)
    (res : result Err) (post : List (result Err)) (err : Err)
    (herr : res.ErrorName = some err) :
    ∀ (pre : List (result Err)) (sum : F64), (∀ r ∈ pre, r.ErrorName = none) →
      ScoreConcurrently.drain exp (pre ++ res :: post).length (pre ++ res :: post) sum
        = some (F64.fin (-1), some err)
  | [], sum, _ => by
    simp only [List.nil_append, List.length_cons, ScoreConcurrently.drain, herr]
  | r :: pre, sum, h => by
    have h1 : r.ErrorName = none := h r (List.mem_cons_self _ _)
    have h2 : ∀ x ∈ pre, x.ErrorName = none := fun x hx => h x (List.mem_cons_of_mem _ hx)
    simp only [List.cons_append, List.length_cons, ScoreConcurrently.drain, h1]
    exact ScoreConcurrently.drain_first_error exp res post err herr pre _ h2

/-- A list with an element satisfying `p` splits at the first such element. -/
theorem exists_first_split {α : Type} (p : α → Prop) [DecidablePred p] :
    ∀ (l : List α), (∃ x ∈ l, p x) →
      ∃ pre x post, l = pre ++ x :: post ∧ (∀ y ∈ pre, ¬ p y) ∧ p x
  | [], h => by simp at h
  | a :: l, h => by
    by_cases ha : p a
    · exact ⟨[], a, l, rfl, by simp, ha⟩
    · have h' : ∃ x ∈ l, p x := by
        rcases h with ⟨x, hx, hp⟩
        rcases List.mem_cons.1 hx with rfl | hx
        · exact absurd hp ha
        · exact ⟨x, hx, hp⟩
      rcases exists_first_split p l h' with ⟨pre, x, post, rfl, hpre, hx⟩
      refine ⟨a :: pre, x, post, rfl, ?_, hx⟩
      intro y hy
      rcases List.mem_cons.1 hy with rfl | hy
      · exact ha
      · exact hpre y hy

theorem ScoreConcurrently.mem_sent (TraverseTree : Node → Features → F64 × Option Err)
    (features : Features) (trees : List Node) (r : result Err) :
    r ∈ ScoreConcurrently.sent TraverseTree features trees ↔
      ∃ tree ∈ trees, r = ⟨(TraverseTree tree features).2, (TraverseTree tree features).1⟩ := by
  simp only [ScoreConcurrently.sent, List.mem_map]
  constructor
  · rintro ⟨t, ht, rfl⟩
    exact ⟨t, ht, rfl⟩
  · rintro ⟨t, ht, rfl⟩
    exact ⟨t, ht, rfl⟩

theorem ScoreConcurrently.sent_length (TraverseTree : Node → Features → F64 × Option Err)
    (features : Features) (trees : List Node) :
    (ScoreConcurrently.sent TraverseTree features trees).length = trees.length := by
  simp [ScoreConcurrently.sent]

theorem ScoreConcurrently.sent_scores (TraverseTree : Node → Features → F64 × Option Err)
    (features : Features) (trees : List Node) :
    (ScoreConcurrently.sent TraverseTree features trees).map result.Score
      = contributions TraverseTree features trees := by
  simp [ScoreConcurrently.sent, contributions]

end Loops

/-! ## float64 facts -/

namespace F64

theorem log2Aux_spec : ∀ (fuel n : Nat), 0 < n → n ≤ fuel →
    2 ^ log2Aux fuel n ≤ n ∧ n < 2 ^ (log2Aux fuel n + 1)
  | 0, n, h0, h => by omega
  | fuel + 1, n, h0, h => by
    unfold log2Aux
    split_ifs with h2
    · constructor <;> simp <;> omega
    · have ih := log2Aux_spec fuel (n / 2) (by omega) (by omega)
      obtain ⟨ih1, ih2⟩ := ih
      rw [pow_succ] at ih2 ⊢
      rw [pow_succ]
      constructor <;> omega

theorem natLog2_spec (n : Nat) (h : 0 < n) :
    2 ^ natLog2 n ≤ n ∧ n < 2 ^ (natLog2 n + 1) :=
  log2Aux_spec n n h le_rfl

theorem two_zpow_pos (e : ℤ) : (0 : ℚ) < 2 ^ e := zpow_pos (by norm_num) e

/-- `ilog2 q` is the binade of `|q|`. -/
theorem ilog2_spec (q : ℚ) (hq : q ≠ 0) :
    (2 : ℚ) ^ ilog2 q ≤ |q| ∧ |q| < (2 : ℚ) ^ (ilog2 q + 1) := by
  have hN : 0 < q.num.natAbs := Int.natAbs_pos.2 (Rat.num_ne_zero.2 hq)
  have hD : 0 < q.den := q.den_pos
  obtain ⟨hN1, hN2⟩ := natLog2_spec _ hN
  obtain ⟨hD1, hD2⟩ := natLog2_spec _ hD
  have habs : |q| = (q.num.natAbs : ℚ) / (q.den : ℚ) := by
    conv_lhs => rw [← Rat.num_div_den q]
    rw [abs_div, Nat.abs_cast, Nat.cast_natAbs, Int.cast_abs]
  have hDq : (0 : ℚ) < (q.den : ℚ) := by exact_mod_cast hD
  have hN1q : (2 : ℚ) ^ (natLog2 q.num.natAbs : ℤ) ≤ (q.num.natAbs : ℚ) := by
    rw [zpow_natCast]; exact_mod_cast hN1
  have hN2q : (q.num.natAbs : ℚ) < (2 : ℚ) ^ ((natLog2 q.num.natAbs : ℤ) + 1) := by
    have : ((natLog2 q.num.natAbs : ℤ) + 1) = ((natLog2 q.num.natAbs + 1 : ℕ) : ℤ) := by
      push_cast; ring
    rw [this, zpow_natCast]; exact_mod_cast hN2
  have hD1q : (2 : ℚ) ^ (natLog2 q.den : ℤ) ≤ (q.den : ℚ) := by
    rw [zpow_natCast]; exact_mod_cast hD1
  have hD2q : (q.den : ℚ) < (2 : ℚ) ^ ((natLog2 q.den : ℤ) + 1) := by
    have : ((natLog2 q.den : ℤ) + 1) = ((natLog2 q.den + 1 : ℕ) : ℤ) := by
      push_cast; ring
    rw [this, zpow_natCast]; exact_mod_cast hD2
  set a : ℤ := (natLog2 q.num.natAbs : ℤ) with ha
  set b : ℤ := (natLog2 q.den : ℤ) with hb
  have h2 : (2 : ℚ) ≠ 0 := by norm_num
  -- |q| < 2 ^ (a - b + 1)
  have hup : |q| < (2 : ℚ) ^ (a - b + 1) := by
    rw [habs, div_lt_iff₀ hDq]
    calc (q.num.natAbs : ℚ) < 2 ^ (a + 1) := hN2q
      _ = 2 ^ (a - b + 1) * 2 ^ b := by rw [← zpow_add₀ h2]; congr 1; ring
      _ ≤ 2 ^ (a - b + 1) * (q.den : ℚ) :=
          mul_le_mul_of_nonneg_left hD1q (two_zpow_pos _).le
  -- 2 ^ (a - b - 1) < |q|
  have hlo : (2 : ℚ) ^ (a - b - 1) < |q| := by
    rw [habs, lt_div_iff₀ hDq]
    calc (2 : ℚ) ^ (a - b - 1) * (q.den : ℚ) < 2 ^ (a - b - 1) * 2 ^ (b + 1) :=
          mul_lt_mul_of_pos_left hD2q (two_zpow_pos _)
      _ = 2 ^ a := by rw [← zpow_add₀ h2]; congr 1; ring
      _ ≤ (q.num.natAbs : ℚ) := hN1q
  unfold ilog2
  simp only [← ha, ← hb]
  split_ifs with hc
  · exact ⟨hc, hup⟩
  · refine ⟨hlo.le, ?_⟩
    have : a - b - 1 + 1 = a - b := by ring
    rw [this]
    exact not_le.1 hc

/-- The binade of `|q|` is unique. -/
theorem ilog2_eq (q : ℚ) (e : ℤ) (h1 : (2 : ℚ) ^ e ≤ |q|) (h2 : |q| < (2 : ℚ) ^ (e + 1)) :
    ilog2 q = e := by
  have hq : q ≠ 0 := by
    rintro rfl
    have := two_zpow_pos e
    simp at h1
    linarith
  obtain ⟨s1, s2⟩ := ilog2_spec q hq
  have a1 : e < ilog2 q + 1 :=
    (zpow_lt_zpow_iff_right₀ (by norm_num : (1 : ℚ) < 2)).1 (lt_of_le_of_lt h1 s2)
  have a2 : ilog2 q < e + 1 :=
    (zpow_lt_zpow_iff_right₀ (by norm_num : (1 : ℚ) < 2)).1 (lt_of_le_of_lt s1 h2)
  omega

theorem roundHalfEven_cases (x : ℚ) :
    roundHalfEven x = ⌊x⌋ ∨ roundHalfEven x = ⌊x⌋ + 1 := by
  unfold roundHalfEven
  simp only
  split_ifs <;> simp

/-- Rounding to the nearest integer moves by at most one half. -/
theorem roundHalfEven_sub_le (x : ℚ) : |(roundHalfEven x : ℚ) - x| ≤ 1 / 2 := by
  have h1 := Int.floor_le x
  have h2 := Int.lt_floor_add_one x
  unfold roundHalfEven
  simp only
  rw [abs_le]
  split_ifs with a b c
  · constructor <;> linarith
  · push_cast; constructor <;> linarith
  · constructor <;> linarith
  · push_cast; constructor <;> linarith

/-- An integer is its own rounding. -/
theorem roundHalfEven_intCast (n : ℤ) : roundHalfEven (n : ℚ) = n := by
  unfold roundHalfEven
  simp

/-- Rounding to the nearest integer is monotone. -/
theorem roundHalfEven_mono {x y : ℚ} (h : x ≤ y) : roundHalfEven x ≤ roundHalfEven y := by
  have hf : ⌊x⌋ ≤ ⌊y⌋ := Int.floor_mono h
  rcases lt_or_eq_of_le hf with hlt | heq
  · have hx : roundHalfEven x ≤ ⌊x⌋ + 1 := by
      rcases roundHalfEven_cases x with h | h <;> omega
    have hy : ⌊y⌋ ≤ roundHalfEven y := by
      rcases roundHalfEven_cases y with h | h <;> omega
    omega
  · unfold roundHalfEven
    simp only
    rw [← heq]
    have hxy : x - (⌊x⌋ : ℚ) ≤ y - (⌊x⌋ : ℚ) := by linarith
    split_ifs <;> first | omega | (exfalso; linarith)

theorem roundHalfEven_le_of_le {x : ℚ} {n : ℤ} (h : x ≤ n) : roundHalfEven x ≤ n := by
  have := roundHalfEven_mono h
  rwa [roundHalfEven_intCast] at this

theorem le_roundHalfEven_of_le {x : ℚ} {n : ℤ} (h : (n : ℚ) ≤ x) : n ≤ roundHalfEven x := by
  have := roundHalfEven_mono h
  rwa [roundHalfEven_intCast] at this

/-- Above one half, the rounding is at least one. -/
theorem one_le_roundHalfEven {x : ℚ} (h : 1 / 2 < x) : 1 ≤ roundHalfEven x := by
  rcases le_or_lt 1 x with h1 | h1
  · exact le_roundHalfEven_of_le (by exact_mod_cast h1)
  · have hf : ⌊x⌋ = 0 := by
      rw [Int.floor_eq_iff]
      constructor <;> push_cast <;> linarith
    unfold roundHalfEven
    simp only [hf]
    push_cast
    rw [if_neg (by linarith), if_pos (by linarith)]

theorem two_zpow_ne_zero (e : ℤ) : (2 : ℚ) ^ e ≠ 0 := (two_zpow_pos e).ne'

theorem two_zpow_add (a b : ℤ) : (2 : ℚ) ^ (a + b) = 2 ^ a * 2 ^ b :=
  zpow_add₀ (by norm_num) a b

theorem two_zpow_succ (e : ℤ) : (2 : ℚ) ^ (e + 1) = 2 * 2 ^ e := by
  rw [two_zpow_add, zpow_one, mul_comm]

theorem two_zpow_le {a b : ℤ} (h : a ≤ b) : (2 : ℚ) ^ a ≤ 2 ^ b :=
  zpow_le_zpow_right₀ (by norm_num) h

theorem two_zpow_lt {a b : ℤ} (h : a < b) : (2 : ℚ) ^ a < 2 ^ b :=
  zpow_lt_zpow_right₀ (by norm_num) h

theorem roundHalfEven_nonneg {x : ℚ} (h : 0 ≤ x) : 0 ≤ roundHalfEven x :=
  le_roundHalfEven_of_le (by exact_mod_cast h)

/-- Shape of the rounding of a positive rational. -/
theorem rne_of_pos (q : ℚ) (hq : 0 < q) :
    rne q =
      if (2 : ℚ) ^ (1024 : ℤ) ≤ (roundHalfEven (q / 2 ^ ulpExp q) : ℚ) * 2 ^ ulpExp q then
        inf false
      else if roundHalfEven (q / 2 ^ ulpExp q) = 0 then fin 0
      else fin ((roundHalfEven (q / 2 ^ ulpExp q) : ℚ) * 2 ^ ulpExp q) := by
  have hu := two_zpow_pos (ulpExp q)
  have hm : 0 ≤ roundHalfEven (q / 2 ^ ulpExp q) :=
    roundHalfEven_nonneg (div_nonneg hq.le hu.le)
  have hv : (0 : ℚ) ≤ (roundHalfEven (q / 2 ^ ulpExp q) : ℚ) * 2 ^ ulpExp q :=
    mul_nonneg (by exact_mod_cast hm) hu.le
  unfold rne
  simp only [hq.ne', if_false, abs_of_nonneg hv, not_lt.2 hq.le, decide_False,
    mul_eq_zero, two_zpow_ne_zero, or_false, Int.cast_eq_zero]

/-- In the normal range the unit in the last place is `2 ^ (e - 52)` and the
significand has 53 bits. -/
theorem normal_significand (q : ℚ) (e : ℤ) (he : -1022 ≤ e)
    (h1 : (2 : ℚ) ^ e ≤ q) (h2 : q < (2 : ℚ) ^ (e + 1)) :
    ulpExp q = e - 52
      ∧ (2 : ℤ) ^ 52 ≤ roundHalfEven (q / 2 ^ (e - 52))
      ∧ roundHalfEven (q / 2 ^ (e - 52)) ≤ (2 : ℤ) ^ 53 := by
  have hq : 0 < q := lt_of_lt_of_le (two_zpow_pos e) h1
  have hlog : ilog2 q = e := ilog2_eq q e (by rwa [abs_of_pos hq]) (by rwa [abs_of_pos hq])
  have hu : ulpExp q = e - 52 := by
    unfold ulpExp
    rw [hlog]
    exact max_eq_left (by omega)
  have hpos := two_zpow_pos (e - 52)
  refine ⟨hu, ?_, ?_⟩
  · apply le_roundHalfEven_of_le
    rw [le_div_iff₀ hpos]
    have : (((2 : ℤ) ^ 52 : ℤ) : ℚ) * 2 ^ (e - 52) = 2 ^ e := by
      have h := two_zpow_add 52 (e - 52)
      rw [show (52 : ℤ) + (e - 52) = e by ring] at h
      rw [h]
      norm_num
    rw [this]
    exact h1
  · apply roundHalfEven_le_of_le
    rw [div_le_iff₀ hpos]
    have : (((2 : ℤ) ^ 53 : ℤ) : ℚ) * 2 ^ (e - 52) = 2 ^ (e + 1) := by
      have h := two_zpow_add 53 (e - 52)
      rw [show (53 : ℤ) + (e - 52) = e + 1 by ring] at h
      rw [h]
      norm_num
    rw [this]
    exact h2.le

/-- Rounding in the normal range without overflow. -/
theorem rne_normal (q : ℚ) (e : ℤ) (he : -1022 ≤ e) (he' : e ≤ 1022)
    (h1 : (2 : ℚ) ^ e ≤ q) (h2 : q < (2 : ℚ) ^ (e + 1)) :
    rne q = fin ((roundHalfEven (q / 2 ^ (e - 52)) : ℚ) * 2 ^ (e - 52)) := by
  have hq : 0 < q := lt_of_lt_of_le (two_zpow_pos e) h1
  obtain ⟨hu, hm1, hm2⟩ := normal_significand q e he h1 h2
  rw [rne_of_pos q hq, hu]
  have hpos := two_zpow_pos (e - 52)
  have hle : (roundHalfEven (q / 2 ^ (e - 52)) : ℚ) * 2 ^ (e - 52) ≤ 2 ^ (e + 1) := by
    have h := two_zpow_add 53 (e - 52)
    rw [show (53 : ℤ) + (e - 52) = e + 1 by ring] at h
    rw [h]
    apply mul_le_mul_of_nonneg_right _ hpos.le
    have h53 : (2 : ℚ) ^ (53 : ℤ) = (((2 : ℤ) ^ 53 : ℤ) : ℚ) := by norm_num
    rw [h53]
    exact_mod_cast hm2
  have hlt : (2 : ℚ) ^ (e + 1) < 2 ^ (1024 : ℤ) := two_zpow_lt (by omega)
  rw [if_neg (not_le.2 (lt_of_le_of_lt hle hlt)), if_neg]
  have : (0 : ℤ) < 2 ^ 52 := by norm_num
  omega

/-- A positive binary64 value is a positive integer multiple of its unit in
the last place, below `2 ^ 1024`. -/
theorem IsFloat.exists_int {x : ℚ} (hx : 0 < x) (h : IsFloat (fin x)) :
    ∃ m : ℤ, 0 < m ∧ x = (m : ℚ) * 2 ^ ulpExp x ∧ x < (2 : ℚ) ^ (1024 : ℤ) := by
  have h' : rne x = fin x := h
  rw [rne_of_pos x hx] at h'
  have hm0 : 0 ≤ roundHalfEven (x / 2 ^ ulpExp x) :=
    roundHalfEven_nonneg (div_nonneg hx.le (two_zpow_pos _).le)
  split_ifs at h' with a b
  · have : (0 : ℚ) = x := by injection h'
    linarith
  · have hv : (roundHalfEven (x / 2 ^ ulpExp x) : ℚ) * 2 ^ ulpExp x = x := by
      injection h'
    refine ⟨roundHalfEven (x / 2 ^ ulpExp x), ?_, hv.symm, ?_⟩
    · omega
    · rw [hv] at a
      exact not_le.1 a

theorem ulpExp_ge (q : ℚ) : -1074 ≤ ulpExp q := le_max_right _ _

/-- The smallest positive binary64 value is `2 ^ (-1074)`. -/
theorem IsFloat.ge_min {x : ℚ} (hx : 0 < x) (h : IsFloat (fin x)) :
    (2 : ℚ) ^ (-1074 : ℤ) ≤ x := by
  obtain ⟨m, hm, hxm, -⟩ := IsFloat.exists_int hx h
  have h1 : (1 : ℚ) ≤ m := by exact_mod_cast hm
  have h2 : (2 : ℚ) ^ (-1074 : ℤ) ≤ 2 ^ ulpExp x := two_zpow_le (ulpExp_ge x)
  rw [hxm]
  calc (2 : ℚ) ^ (-1074 : ℤ) ≤ 2 ^ ulpExp x := h2
    _ = 1 * 2 ^ ulpExp x := (one_mul _).symm
    _ ≤ (m : ℚ) * 2 ^ ulpExp x := mul_le_mul_of_nonneg_right h1 (two_zpow_pos _).le

/-- A positive binary64 value of the binade `[2 ^ e, 2 ^ (e + 1))` lies on the
grid of step `2 ^ (e - 52)`. -/
theorem IsFloat.grid {x : ℚ} (h : IsFloat (fin x)) (e : ℤ) (he : -1022 ≤ e)
    (h1 : (2 : ℚ) ^ e ≤ x) (h2 : x < (2 : ℚ) ^ (e + 1)) :
    ∃ m : ℤ, 0 < m ∧ x = (m : ℚ) * 2 ^ (e - 52) := by
  have hx : 0 < x := lt_of_lt_of_le (two_zpow_pos e) h1
  obtain ⟨m, hm, hxm, -⟩ := IsFloat.exists_int hx h
  rw [(normal_significand x e he h1 h2).1] at hxm
  exact ⟨m, hm, hxm⟩

/-- The largest binary64 value below `2 ^ e` is `2 ^ e - 2 ^ (e - 53)`. -/
theorem IsFloat.le_pred {x : ℚ} (hx : 0 < x) (h : IsFloat (fin x)) (e : ℤ)
    (he : -1021 ≤ e) (hlt : x < (2 : ℚ) ^ e) :
    x ≤ (2 : ℚ) ^ e - 2 ^ (e - 53) := by
  obtain ⟨s1, s2⟩ := ilog2_spec x hx.ne'
  rw [abs_of_pos hx] at s1 s2
  have hlog : ilog2 x < e :=
    (zpow_lt_zpow_iff_right₀ (by norm_num : (1 : ℚ) < 2)).1 (lt_of_le_of_lt s1 hlt)
  have hhalf : (2 : ℚ) ^ e = 2 * 2 ^ (e - 1) := by
    rw [← two_zpow_succ]; congr 1; ring
  rcases lt_or_eq_of_le (show ilog2 x ≤ e - 1 by omega) with hl | hl
  · have a1 : (2 : ℚ) ^ (ilog2 x + 1) ≤ 2 ^ (e - 1) := two_zpow_le (by omega)
    have a2 : (2 : ℚ) ^ (e - 53) ≤ 2 ^ (e - 1) := two_zpow_le (by omega)
    linarith
  · have hgrid := IsFloat.grid h (e - 1) (by omega) (by rw [← hl]; exact s1)
      (by rw [← hl]; exact s2)
    obtain ⟨m, -, hxm⟩ := hgrid
    rw [show e - 1 - 52 = e - 53 by ring] at hxm
    have hpos := two_zpow_pos (e - 53)
    have he53 : (2 : ℚ) ^ e = (((2 : ℤ) ^ 53 : ℤ) : ℚ) * 2 ^ (e - 53) := by
      have h := two_zpow_add 53 (e - 53)
      rw [show (53 : ℤ) + (e - 53) = e by ring] at h
      rw [h]
      norm_num
    have hm : m < 2 ^ 53 := by
      rw [hxm, he53] at hlt
      have := lt_of_mul_lt_mul_right hlt hpos.le
      exact_mod_cast this
    have hm' : (m : ℚ) ≤ (((2 : ℤ) ^ 53 : ℤ) : ℚ) - 1 := by
      have : m ≤ 2 ^ 53 - 1 := by omega
      exact_mod_cast this
    rw [hxm, he53]
    nlinarith

/-- Rounding a rational of `(2 ^ (-1075), 1 - 2 ^ (-53)]` gives a finite value
strictly between 0 and 1. -/
theorem rne_unit_interval (w : ℚ) (h1 : (2 : ℚ) ^ (-1075 : ℤ) < w)
    (h2 : w ≤ 1 - (2 : ℚ) ^ (-53 : ℤ)) :
    ∃ z : ℚ, rne w = fin z ∧ 0 < z ∧ z < 1 := by
  have hw : 0 < w := lt_trans (two_zpow_pos _) h1
  obtain ⟨s1, s2⟩ := ilog2_spec w hw.ne'
  rw [abs_of_pos hw] at s1 s2
  have h53 := two_zpow_pos (-53)
  have hlog : ilog2 w < 0 := by
    have : (2 : ℚ) ^ ilog2 w < 2 ^ (0 : ℤ) := by
      rw [zpow_zero]; linarith
    exact (zpow_lt_zpow_iff_right₀ (by norm_num : (1 : ℚ) < 2)).1 this
  have hE1 : ulpExp w ≤ -53 := by
    unfold ulpExp
    exact max_le (by omega) (by norm_num)
  have hE2 := ulpExp_ge w
  have hu := two_zpow_pos (ulpExp w)
  -- the significand is at least one
  have hm1 : 1 ≤ roundHalfEven (w / 2 ^ ulpExp w) := by
    apply one_le_roundHalfEven
    rw [lt_div_iff₀ hu]
    rcases le_total (ilog2 w - 52) (-1074) with hc | hc
    · have hE : ulpExp w = -1074 := max_eq_right hc
      rw [hE]
      have : (2 : ℚ) ^ (-1075 : ℤ) = 1 / 2 * 2 ^ (-1074 : ℤ) := by
        have h := two_zpow_succ (-1075)
        rw [show (-1075 : ℤ) + 1 = -1074 by norm_num] at h
        rw [h]; ring
      rw [← this]
      exact h1
    · have hE : ulpExp w = ilog2 w - 52 := max_eq_left hc
      rw [hE]
      have h := two_zpow_add 52 (ilog2 w - 52)
      rw [show (52 : ℤ) + (ilog2 w - 52) = ilog2 w by ring] at h
      have h52 : (1 : ℚ) ≤ 2 ^ (52 : ℤ) := by norm_num
      have hp := two_zpow_pos (ilog2 w - 52)
      nlinarith
  -- the rounded value is at most `1 - ulp`
  have hone : (2 : ℚ) ^ (-ulpExp w) * 2 ^ ulpExp w = 1 := by
    rw [← two_zpow_add]; simp
  have hN : ∃ N : ℤ, (N : ℚ) = 2 ^ (-ulpExp w) := by
    refine ⟨2 ^ (-ulpExp w).toNat, ?_⟩
    push_cast
    rw [← zpow_natCast]
    congr 1
    exact Int.toNat_of_nonneg (by omega)
  obtain ⟨N, hN⟩ := hN
  have hm2 : roundHalfEven (w / 2 ^ ulpExp w) ≤ N - 1 := by
    apply roundHalfEven_le_of_le
    rw [div_le_iff₀ hu]
    push_cast
    rw [hN, sub_mul, hone, one_mul]
    have hle : (2 : ℚ) ^ ulpExp w ≤ 2 ^ (-53 : ℤ) := two_zpow_le hE1
    linarith
  have hv1 : (roundHalfEven (w / 2 ^ ulpExp w) : ℚ) * 2 ^ ulpExp w < 1 := by
    have : ((roundHalfEven (w / 2 ^ ulpExp w) : ℤ) : ℚ) ≤ (N : ℚ) - 1 := by exact_mod_cast hm2
    have h3 : (roundHalfEven (w / 2 ^ ulpExp w) : ℚ) * 2 ^ ulpExp w
        ≤ ((N : ℚ) - 1) * 2 ^ ulpExp w := mul_le_mul_of_nonneg_right this hu.le
    rw [hN, sub_mul, hone, one_mul] at h3
    linarith
  have hv0 : 0 < (roundHalfEven (w / 2 ^ ulpExp w) : ℚ) * 2 ^ ulpExp w := by
    apply mul_pos _ hu
    exact_mod_cast (by omega : 0 < roundHalfEven (w / 2 ^ ulpExp w))
  refine ⟨(roundHalfEven (w / 2 ^ ulpExp w) : ℚ) * 2 ^ ulpExp w, ?_, hv0, hv1⟩
  rw [rne_of_pos w hw, if_neg, if_neg]
  · omega
  · have : (1 : ℚ) < 2 ^ (1024 : ℤ) := by norm_num
    linarith

/-- Rounding `1 + x` for a positive binary64 `x`: unless the result is `x`
itself, it is a finite `y ≥ 1` above `x`, separated from `x` by at least the
relative spacing `2 ^ (-53)` of binary64 values. -/
theorem rne_one_add {x : ℚ} (hx : 0 < x) (hf : IsFloat (fin x))
    (hne : rne (1 + x) ≠ fin x) :
    ∃ y : ℚ, rne (1 + x) = fin y ∧ 1 ≤ y ∧ x ≤ y * (1 - (2 : ℚ) ^ (-53 : ℤ))
      ∧ (x ≤ 1 / 2 → y ≤ 3 / 2) ∧ y ≤ 2 + 2 * x := by
  have ht : 0 < 1 + x := by linarith
  obtain ⟨s1, s2⟩ := ilog2_spec (1 + x) ht.ne'
  rw [abs_of_pos ht] at s1 s2
  set e := ilog2 (1 + x) with he
  have he0 : 0 ≤ e := by
    have : (2 : ℚ) ^ (0 : ℤ) < 2 ^ (e + 1) := by
      rw [zpow_zero]; linarith
    have := (zpow_lt_zpow_iff_right₀ (by norm_num : (1 : ℚ) < 2)).1 this
    omega
  obtain ⟨-, -, -, hx1024⟩ := IsFloat.exists_int hx hf
  have hpred := IsFloat.le_pred hx hf 1024 (by norm_num) hx1024
  have he1023 : e ≤ 1023 := by
    have h971 : (1 : ℚ) < 2 ^ (1024 - 53 : ℤ) := by norm_num
    have : (2 : ℚ) ^ e < 2 ^ (1024 : ℤ) := by linarith
    have := (zpow_lt_zpow_iff_right₀ (by norm_num : (1 : ℚ) < 2)).1 this
    omega
  obtain ⟨hu, hm1, hm2⟩ := normal_significand (1 + x) e (by omega) s1 s2
  set m := roundHalfEven ((1 + x) / 2 ^ (e - 52)) with hm
  have hupos := two_zpow_pos (e - 52)
  have herr := roundHalfEven_sub_le ((1 + x) / 2 ^ (e - 52))
  rw [← hm, abs_le] at herr
  have h52 : (2 : ℚ) ^ e = (((2 : ℤ) ^ 52 : ℤ) : ℚ) * 2 ^ (e - 52) := by
    have h := two_zpow_add 52 (e - 52)
    rw [show (52 : ℤ) + (e - 52) = e by ring] at h
    rw [h]; norm_num
  have h53 : (2 : ℚ) ^ (e + 1) = (((2 : ℤ) ^ 53 : ℤ) : ℚ) * 2 ^ (e - 52) := by
    have h := two_zpow_add 53 (e - 52)
    rw [show (53 : ℤ) + (e - 52) = e + 1 by ring] at h
    rw [h]; norm_num
  have hylo : (2 : ℚ) ^ e ≤ (m : ℚ) * 2 ^ (e - 52) := by
    rw [h52]
    exact mul_le_mul_of_nonneg_right (by exact_mod_cast hm1) hupos.le
  have hyhi : (m : ℚ) * 2 ^ (e - 52) ≤ 2 ^ (e + 1) := by
    rw [h53]
    exact mul_le_mul_of_nonneg_right (by exact_mod_cast hm2) hupos.le
  have hone : (1 : ℚ) ≤ 2 ^ e := by
    have := two_zpow_le he0
    rwa [zpow_zero] at this
  -- the binade of `1 + x` is at most 53, and `x` is well below the result
  have key : e ≤ 53 ∧ x ≤ (m : ℚ) * 2 ^ (e - 52) * (1 - (2 : ℚ) ^ (-53 : ℤ)) := by
    rcases lt_or_le x ((2 : ℚ) ^ e) with hlt | hge
    · have hp := IsFloat.le_pred hx hf e (by omega) hlt
      have h1 : (2 : ℚ) ^ (e - 53) ≤ 2 ^ (0 : ℤ) := by
        rw [zpow_zero]; linarith
      have he53 := (zpow_le_zpow_iff_right₀ (by norm_num : (1 : ℚ) < 2)).1 h1
      refine ⟨by omega, ?_⟩
      have hsplit : (2 : ℚ) ^ (e - 53) = 2 ^ e * 2 ^ (-53 : ℤ) := by
        rw [← two_zpow_add]; congr 1
      have h53pos := two_zpow_pos (-53)
      have h53lt : (2 : ℚ) ^ (-53 : ℤ) < 1 := by norm_num
      calc x ≤ 2 ^ e - 2 ^ (e - 53) := hp
        _ = 2 ^ e * (1 - 2 ^ (-53 : ℤ)) := by rw [hsplit]; ring
        _ ≤ (m : ℚ) * 2 ^ (e - 52) * (1 - 2 ^ (-53 : ℤ)) :=
            mul_le_mul_of_nonneg_right hylo (by linarith)
    · obtain ⟨mx, hmx, hxm⟩ := IsFloat.grid hf e (by omega) hge (by linarith)
      have hmle : mx ≤ m := by
        apply le_roundHalfEven_of_le
        rw [le_div_iff₀ hupos, ← hxm]
        linarith
      have hmne : mx ≠ m := by
        intro heq
        apply hne
        rw [rne_of_pos (1 + x) ht, hu, ← hm, ← heq, ← hxm, if_neg (not_le.2 hx1024),
          if_neg (by omega)]
      have hmlt : mx + 1 ≤ m := by omega
      have hdiv : (1 + x) / 2 ^ (e - 52) = (mx : ℚ) + 1 / 2 ^ (e - 52) := by
        rw [hxm]; field_simp; ring
      have hmq : (mx : ℚ) + 1 ≤ m := by exact_mod_cast hmlt
      have hinv : (1 : ℚ) / 2 ≤ 1 / 2 ^ (e - 52) := by
        rw [hdiv] at herr
        linarith [herr.2]
      have hule : (2 : ℚ) ^ (e - 52) ≤ 2 ^ (1 : ℤ) := by
        rw [zpow_one]
        exact (one_div_le_one_div (by norm_num) hupos).1 hinv
      have he53 := (zpow_le_zpow_iff_right₀ (by norm_num : (1 : ℚ) < 2)).1 hule
      refine ⟨by omega, ?_⟩
      have hm2q : (m : ℚ) ≤ (((2 : ℤ) ^ 53 : ℤ) : ℚ) := by exact_mod_cast hm2
      have h53v : (2 : ℚ) ^ (-53 : ℤ) * (((2 : ℤ) ^ 53 : ℤ) : ℚ) = 1 := by norm_num
      have h53pos := two_zpow_pos (-53)
      have : (m : ℚ) * 2 ^ (-53 : ℤ) ≤ 1 := by nlinarith
      rw [hxm]
      have : (mx : ℚ) ≤ (m : ℚ) * (1 - 2 ^ (-53 : ℤ)) := by linarith
      calc (mx : ℚ) * 2 ^ (e - 52) ≤ (m : ℚ) * (1 - 2 ^ (-53 : ℤ)) * 2 ^ (e - 52) :=
            mul_le_mul_of_nonneg_right this hupos.le
        _ = (m : ℚ) * 2 ^ (e - 52) * (1 - 2 ^ (-53 : ℤ)) := by ring
  obtain ⟨he53, hsep⟩ := key
  refine ⟨(m : ℚ) * 2 ^ (e - 52), ?_, ?_, hsep, ?_, ?_⟩
  · exact rne_normal (1 + x) e (by omega) (by omega) s1 s2
  · linarith
  · intro hhalf
    have he1 : e = 0 := by
      have : (2 : ℚ) ^ e < 2 ^ (1 : ℤ) := by
        rw [zpow_one]; linarith
      have := (zpow_lt_zpow_iff_right₀ (by norm_num : (1 : ℚ) < 2)).1 this
      omega
    have hmle : m ≤ 3 * 2 ^ 51 := by
      apply roundHalfEven_le_of_le
      rw [div_le_iff₀ hupos, he1]
      norm_num
      linarith
    have hmq : (m : ℚ) ≤ ((3 * 2 ^ 51 : ℤ) : ℚ) := by exact_mod_cast hmle
    rw [he1]
    norm_num at hmq ⊢
    linarith
  · rw [two_zpow_succ] at hyhi
    linarith

/-- The float64 quotient `x / (1 + x)` for a positive binary64 `x` that `1 + x`
does not round back to: a finite value strictly between 0 and 1. -/
theorem div_one_add_in_unit {x : ℚ} (hx : 0 < x) (hf : IsFloat (fin x))
    (hne : add (fin 1) (fin x) ≠ fin x) :
    ∃ z : ℚ, div (fin x) (add (fin 1) (fin x)) = fin z ∧ 0 < z ∧ z < 1 := by
  have hadd : add (fin 1) (fin x) = rne (1 + x) := rfl
  rw [hadd] at hne ⊢
  obtain ⟨y, hy, hy1, hsep, hhalf, hlin⟩ := rne_one_add hx hf hne
  have hypos : 0 < y := by linarith
  have hdiv : div (fin x) (fin y) = rne (x / y) := by
    simp [div, hypos.ne', hx.ne']
  rw [hy, hdiv]
  apply rne_unit_interval
  · have hmin := IsFloat.ge_min hx hf
    have h1075 : (2 : ℚ) ^ (-1075 : ℤ) = 1 / 2 * 2 ^ (-1074 : ℤ) := by
      have h := two_zpow_succ (-1075)
      rw [show (-1075 : ℤ) + 1 = -1074 by norm_num] at h
      rw [h]; ring
    have hpos := two_zpow_pos (-1074)
    have hsmall : (2 : ℚ) ^ (-1074 : ℤ) < 1 / 8 := by
      have : (2 : ℚ) ^ (-1074 : ℤ) < 2 ^ (-3 : ℤ) := two_zpow_lt (by norm_num)
      norm_num at this ⊢
    rw [lt_div_iff₀ hypos, h1075]
    generalize (2 : ℚ) ^ (-1074 : ℤ) = P at hmin hpos hsmall ⊢
    rcases le_or_lt x (1 / 2) with hc | hc
    · have h1 := hhalf hc
      have h2 : 1 / 2 * P * y ≤ 1 / 2 * P * (3 / 2) :=
        mul_le_mul_of_nonneg_left h1 (by positivity)
      linarith
    · have h2 : 1 / 2 * P * y ≤ 1 / 2 * (1 / 8) * y :=
        mul_le_mul_of_nonneg_right (by linarith) hypos.le
      linarith
  · rw [div_le_iff₀ hypos]
    linarith

/-- In the normal range, rounding moves a value by at most half a unit in the
last place. -/
theorem rne_normal_close (q : ℚ) (e : ℤ) (he : -1022 ≤ e) (he' : e ≤ 1022)
    (h1 : (2 : ℚ) ^ e ≤ q) (h2 : q < (2 : ℚ) ^ (e + 1)) :
    ∃ v : ℚ, rne q = fin v ∧ |v - q| ≤ (2 : ℚ) ^ (e - 53) := by
  refine ⟨_, rne_normal q e he he' h1 h2, ?_⟩
  have hu := two_zpow_pos (e - 52)
  have herr := roundHalfEven_sub_le (q / 2 ^ (e - 52))
  have hsplit : (2 : ℚ) ^ (e - 53) = 1 / 2 * 2 ^ (e - 52) := by
    have h := two_zpow_succ (e - 53)
    rw [show e - 53 + 1 = e - 52 by ring] at h
    rw [h]; ring
  have hq : q = q / 2 ^ (e - 52) * 2 ^ (e - 52) := by field_simp
  rw [hsplit]
  calc |(roundHalfEven (q / 2 ^ (e - 52)) : ℚ) * 2 ^ (e - 52) - q|
      = |((roundHalfEven (q / 2 ^ (e - 52)) : ℚ) - q / 2 ^ (e - 52)) * 2 ^ (e - 52)| := by
        rw [sub_mul, ← hq]
    _ = |(roundHalfEven (q / 2 ^ (e - 52)) : ℚ) - q / 2 ^ (e - 52)| * 2 ^ (e - 52) := by
        rw [abs_mul, abs_of_pos hu]
    _ ≤ 1 / 2 * 2 ^ (e - 52) := mul_le_mul_of_nonneg_right herr hu.le

/-- The float64 quotient `x / (1 + x)` for `x` within `1e-9` of
`2.459603111` (the value of `e ^ 0.9` to nine decimals) is within `1e-9` of
`0.7109495026`. -/
theorem div_one_add_near {x : ℚ} (h1 : 2459603110 / 1000000000 ≤ x)
    (h2 : x ≤ 2459603112 / 1000000000) :
    ∃ z : ℚ, div (fin x) (add (fin 1) (fin x)) = fin z
      ∧ |z - 7109495026 / 10000000000| ≤ 1 / 1000000000 := by
  have hadd : add (fin 1) (fin x) = rne (1 + x) := rfl
  obtain ⟨y, hy, hyc⟩ := rne_normal_close (1 + x) 1 (by norm_num) (by norm_num)
    (by norm_num; linarith) (by norm_num; linarith)
  norm_num at hyc
  rw [abs_le] at hyc
  have hypos : 0 < y := by linarith [hyc.1]
  have hdiv : div (fin x) (fin y) = rne (x / y) := by
    have hx : x ≠ 0 := by linarith
    simp [div, hypos.ne', hx]
  obtain ⟨z, hz, hzc⟩ := rne_normal_close (x / y) (-1) (by norm_num) (by norm_num)
    (by norm_num; rw [le_div_iff₀ hypos]; linarith [hyc.2])
    (by norm_num; rw [div_lt_iff₀ hypos]; linarith [hyc.1])
  norm_num at hzc
  rw [abs_le] at hzc
  refine ⟨z, by rw [hadd, hy, hdiv, hz], ?_⟩
  have hlo : (7109495020 / 10000000000 : ℚ) ≤ x / y := by
    rw [le_div_iff₀ hypos]; linarith [hyc.2]
  have hhi : x / y ≤ (7109495032 / 10000000000 : ℚ) := by
    rw [div_le_iff₀ hypos]; linarith [hyc.1]
  rw [abs_le]
  constructor <;> linarith [hzc.1, hzc.2]

/-- Rounding an integer plus less than one half gives the integer. -/
theorem roundHalfEven_int_add (m : ℤ) (d : ℚ) (h0 : 0 ≤ d) (h1 : d < 1 / 2) :
    roundHalfEven ((m : ℚ) + d) = m := by
  have hf : ⌊(m : ℚ) + d⌋ = m := by
    rw [Int.floor_eq_iff]
    constructor <;> linarith
  unfold roundHalfEven
  simp only [hf]
  rw [if_pos (by linarith)]

/-- From `2 ^ 54` on, adding 1 to a binary64 value rounds back to the value. -/
theorem rne_one_add_absorbed {x : ℚ} (hf : IsFloat (fin x)) (hx : (2 : ℚ) ^ (54 : ℤ) ≤ x) :
    rne (1 + x) = fin x := by
  have hpos : 0 < x := lt_of_lt_of_le (two_zpow_pos 54) hx
  obtain ⟨s1, s2⟩ := ilog2_spec x hpos.ne'
  rw [abs_of_pos hpos] at s1 s2
  set e := ilog2 x with he
  have he54 : 54 ≤ e := by
    have : (2 : ℚ) ^ (54 : ℤ) < 2 ^ (e + 1) := lt_of_le_of_lt hx s2
    have := (zpow_lt_zpow_iff_right₀ (by norm_num : (1 : ℚ) < 2)).1 this
    omega
  obtain ⟨-, -, -, hx1024⟩ := IsFloat.exists_int hpos hf
  obtain ⟨m, hm, hxm⟩ := IsFloat.grid hf e (by omega) s1 s2
  have hu := two_zpow_pos (e - 52)
  have hu4 : (4 : ℚ) ≤ 2 ^ (e - 52) := by
    have : (2 : ℚ) ^ (2 : ℤ) ≤ 2 ^ (e - 52) := two_zpow_le (by omega)
    norm_num at this
    exact this
  have h53 : (2 : ℚ) ^ (e + 1) = (((2 : ℤ) ^ 53 : ℤ) : ℚ) * 2 ^ (e - 52) := by
    have h := two_zpow_add 53 (e - 52)
    rw [show (53 : ℤ) + (e - 52) = e + 1 by ring] at h
    rw [h]; norm_num
  have hmlt : m < 2 ^ 53 := by
    rw [hxm, h53] at s2
    have := lt_of_mul_lt_mul_right s2 hu.le
    exact_mod_cast this
  have hmq : (m : ℚ) + 1 ≤ (((2 : ℤ) ^ 53 : ℤ) : ℚ) := by
    have : m + 1 ≤ 2 ^ 53 := by omega
    exact_mod_cast this
  have ht2 : 1 + x < (2 : ℚ) ^ (e + 1) := by
    rw [h53, hxm]
    nlinarith
  have ht1 : (2 : ℚ) ^ e ≤ 1 + x := by linarith
  have hu' := (normal_significand (1 + x) e (by omega) ht1 ht2).1
  have hdiv : (1 + x) / 2 ^ (e - 52) = (m : ℚ) + 1 / 2 ^ (e - 52) := by
    rw [hxm]; field_simp; ring
  have hsmall : 1 / (2 : ℚ) ^ (e - 52) < 1 / 2 := by
    exact one_div_lt_one_div_of_lt (by norm_num) (by linarith)
  have hr : roundHalfEven ((1 + x) / 2 ^ (e - 52)) = m := by
    rw [hdiv]
    exact roundHalfEven_int_add m _ (by positivity) hsmall
  rw [rne_of_pos (1 + x) (by linarith), hu', hr, ← hxm, if_neg (not_le.2 hx1024),
    if_neg (by omega)]

/-- When `1 + x` rounds back to `x`, the float64 quotient `x / (1 + x)` is 1. -/
theorem div_one_add_absorbed {x : ℚ} (hx : 0 < x)
    (habs : add (fin 1) (fin x) = fin x) :
    div (fin x) (add (fin 1) (fin x)) = fin 1 := by
  rw [habs]
  have : div (fin x) (fin x) = rne (x / x) := by simp [div, hx.ne']
  rw [this, div_self hx.ne']
  decide!

end F64

theorem F64.rne_zero : F64.rne 0 = F64.fin 0 := by simp [F64.rne]

/-- Adding a zero on the left leaves a binary64 value unchanged, except that
`+0 + -0` is `+0`. -/
theorem F64.zero_add (z c : F64) (hz : z.isZero = true) (hc : c.IsFloat) :
    F64.add z c = if z = F64.fin 0 ∧ c = F64.negZero then F64.fin 0 else c := by
  cases z with
  | nan => simp [F64.isZero] at hz
  | inf b => simp [F64.isZero] at hz
  | negZero =>
    cases c with
    | nan => simp [F64.add]
    | inf b => simp [F64.add]
    | negZero => simp [F64.add]
    | fin q => simpa [F64.add] using hc
  | fin a =>
    have ha : a = 0 := by simpa [F64.isZero] using hz
    subst ha
    cases c with
    | nan => simp [F64.add]
    | inf b => simp [F64.add]
    | negZero => simp [F64.add, F64.rne_zero]
    | fin q =>
      have : F64.rne q = F64.fin q := hc
      simp [F64.add, this]

/-! ## Outcomes of the two strategies -/

section Outcomes
variable {Node Features Err : Type}

/-- With a failing tree, `Score` returns the error of the first failing tree,
whatever follows that tree. -/
theorem Score.first_tree_error (exp : F64 → F64)
    (TraverseTree : Node → Features → F64 × Option Err)
    (gbm : GradientBoostedModel Node) (features : Features)
    (hfail : ∃ tree ∈ gbm.Trees, (TraverseTree tree features).2 ≠ none) :
    ∃ (pre : List Node) (tree : Node) (post : List Node) (err : Err),
      gbm.Trees = pre ++ tree :: post
        ∧ AllSucceed TraverseTree features pre
        ∧ (TraverseTree tree features).2 = some err
        ∧ Score exp TraverseTree gbm features = (F64.fin (-1), some err)
        ∧ ∀ (post' : List Node),
            Score exp TraverseTree { gbm with Trees := pre ++ tree :: post' } features
              = (F64.fin (-1), some err) := by
  classical
  rcases exists_first_split (fun t => (TraverseTree t features).2 ≠ none) gbm.Trees hfail with
    ⟨pre, tree, post, hsplit, hpre, htree⟩
  obtain ⟨err, herr⟩ := Option.ne_none_iff_exists'.1 htree
  have hpre' : AllSucceed TraverseTree features pre := fun t ht => by
    simpa using hpre t ht
  refine ⟨pre, tree, post, err, hsplit, hpre', herr, ?_, ?_⟩
  · rw [Score, hsplit]
    exact Score.range_first_error exp TraverseTree features tree post err herr pre _ hpre'
  · intro post'
    exact Score.range_first_error exp TraverseTree features tree post' err herr pre _ hpre'

/-- Under `Arrival`, a tree fails exactly when a message carries an error. -/
theorem Arrival.exists_error_iff {TraverseTree : Node → Features → F64 × Option Err}
    {features : Features} {gbm : GradientBoostedModel Node} {messages : List (result Err)}
    (harr : Arrival TraverseTree features gbm messages) :
    (∃ r ∈ messages, r.ErrorName ≠ none)
      ↔ ∃ tree ∈ gbm.Trees, (TraverseTree tree features).2 ≠ none := by
  constructor
  · rintro ⟨r, hr, hne⟩
    obtain ⟨tree, ht, rfl⟩ := (ScoreConcurrently.mem_sent TraverseTree features gbm.Trees r).1
      (harr.mem_iff.1 hr)
    exact ⟨tree, ht, hne⟩
  · rintro ⟨tree, ht, hne⟩
    exact ⟨_, harr.mem_iff.2
      ((ScoreConcurrently.mem_sent TraverseTree features gbm.Trees _).2 ⟨tree, ht, rfl⟩), hne⟩

theorem Arrival.length_eq {TraverseTree : Node → Features → F64 × Option Err}
    {features : Features} {gbm : GradientBoostedModel Node} {messages : List (result Err)}
    (harr : Arrival TraverseTree features gbm messages) :
    gbm.Trees.length = messages.length := by
  rw [List.Perm.length_eq harr, ScoreConcurrently.sent_length]

/-- With a failing message, `ScoreConcurrently` returns the error of the first
failing message in arrival order. -/
theorem ScoreConcurrently.first_message_error (exp : F64 → F64)
    (gbm : GradientBoostedModel Node) (messages : List (result Err))
    (hlen : gbm.Trees.length = messages.length)
    (hfail : ∃ r ∈ messages, r.ErrorName ≠ none) :
    ∃ (pre : List (result Err)) (res : result Err) (post : List (result Err)) (err : Err),
      messages = pre ++ res :: post ∧ (∀ r ∈ pre, r.ErrorName = none)
        ∧ res.ErrorName = some err
        ∧ ScoreConcurrently exp gbm messages = some (F64.fin (-1), some err) := by
  classical
  rcases exists_first_split (fun r : result Err => r.ErrorName ≠ none) messages hfail with
    ⟨pre, res, post, hsplit, hpre, hres⟩
  obtain ⟨err, herr⟩ := Option.ne_none_iff_exists'.1 hres
  have hpre' : ∀ r ∈ pre, r.ErrorName = none := fun r hr => by simpa using hpre r hr
  refine ⟨pre, res, post, err, hsplit, hpre', herr, ?_⟩
  rw [ScoreConcurrently, hlen, hsplit]
  exact ScoreConcurrently.drain_first_error exp res post err herr pre _ hpre'

/-- Without a failing message, `ScoreConcurrently` returns the logistic of the
sum accumulated in arrival order. -/
theorem ScoreConcurrently.of_noError (exp : F64 → F64)
    (gbm : GradientBoostedModel Node) (messages : List (result Err))
    (hlen : gbm.Trees.length = messages.length)
    (hok : ∀ r ∈ messages, r.ErrorName = none) :
    ScoreConcurrently exp gbm messages
      = some (logistic exp (accumulate (fetchConst gbm) (messages.map result.Score)), none) := by
  rw [ScoreConcurrently, hlen]
  exact ScoreConcurrently.drain_of_noError exp messages _ hok

/-- Under `Arrival`, when every tree succeeds no message carries an error. -/
theorem Arrival.noError {TraverseTree : Node → Features → F64 × Option Err}
    {features : Features} {gbm : GradientBoostedModel Node} {messages : List (result Err)}
    (harr : Arrival TraverseTree features gbm messages)
    (hok : AllSucceed TraverseTree features gbm.Trees) :
    ∀ r ∈ messages, r.ErrorName = none := by
  intro r hr
  obtain ⟨t, ht, rfl⟩ := (ScoreConcurrently.mem_sent TraverseTree features gbm.Trees r).1
    (harr.mem_iff.1 hr)
  exact hok t ht

/-- Under `Arrival`, the scores of the messages are a permutation of the
contributions of the trees. -/
theorem Arrival.scores_perm {TraverseTree : Node → Features → F64 × Option Err}
    {features : Features} {gbm : GradientBoostedModel Node} {messages : List (result Err)}
    (harr : Arrival TraverseTree features gbm messages) :
    (messages.map result.Score).Perm (contributions TraverseTree features gbm.Trees) := by
  rw [← ScoreConcurrently.sent_scores]
  exact List.Perm.map _ harr

/-- When every tree succeeds, `Score` returns the logistic of the sum
accumulated in tree order. -/
theorem Score.of_allSucceed (exp : F64 → F64)
    (TraverseTree : Node → Features → F64 × Option Err)
    (gbm : GradientBoostedModel Node) (features : Features)
    (hok : AllSucceed TraverseTree features gbm.Trees) :
    Score exp TraverseTree gbm features
      = (logistic exp (accumulate (fetchConst gbm)
          (contributions TraverseTree features gbm.Trees)), none) :=
  Score.range_of_allSucceed exp TraverseTree features gbm.Trees (fetchConst gbm) hok

/-- When every tree succeeds, `ScoreConcurrently` returns the logistic of the
sum accumulated in arrival order. -/
theorem ScoreConcurrently.value_of_allSucceed (exp : F64 → F64)
    (TraverseTree : Node → Features → F64 × Option Err)
    (gbm : GradientBoostedModel Node) (features : Features) (messages : List (result Err))
    (hok : AllSucceed TraverseTree features gbm.Trees)
    (harr : Arrival TraverseTree features gbm messages) :
    ScoreConcurrently exp gbm messages
      = some (logistic exp (accumulate (fetchConst gbm) (messages.map result.Score)), none) :=
  ScoreConcurrently.of_noError exp gbm messages harr.length_eq (harr.noError hok)

end Outcomes

theorem logistic_of_inf (exp : F64 → F64) (s : F64) (h : exp s = F64.inf false) :
    logistic exp s = F64.nan := by
  unfold logistic
  rw [h]
  rfl

theorem logistic_of_zero (exp : F64 → F64) (s : F64) (h : exp s = F64.fin 0) :
    logistic exp s = F64.fin 0 := by
  unfold logistic
  rw [h]
  decide!

theorem logistic_of_absorbed (exp : F64 → F64) (s : F64) (x : ℚ) (h : exp s = F64.fin x)
    (hf : (F64.fin x).IsFloat) (hx : (2 : ℚ) ^ 54 ≤ x) :
    logistic exp s = F64.fin 1 := by
  have hx' : (2 : ℚ) ^ (54 : ℤ) ≤ x := by
    have : (2 : ℚ) ^ (54 : ℤ) = (2 : ℚ) ^ 54 := by norm_num
    rw [this]
    exact hx
  have hpos : 0 < x := lt_of_lt_of_le (F64.two_zpow_pos 54) hx'
  unfold logistic
  rw [h]
  exact F64.div_one_add_absorbed hpos (F64.rne_one_add_absorbed hf hx')

theorem logistic_of_regular (exp : F64 → F64) (s : F64) (h : Regular (exp s)) :
    InUnit (logistic exp s) := by
  obtain ⟨x, hx, hpos, hf, hne⟩ := h
  unfold logistic
  rw [hx]
  exact F64.div_one_add_in_unit hpos hf hne

/-- Two exact accumulations of the same values in different orders agree. -/
theorem SumsExactly.eq_of_perm {c : F64} {xs ys : List F64} (hperm : xs.Perm ys)
    (hx : SumsExactly c xs) (hy : SumsExactly c ys) :
    accumulate c xs = accumulate c ys := by
  obtain ⟨q, qs, hc, hxs, hsum⟩ := hx
  obtain ⟨q', rs, hc', hys, hsum'⟩ := hy
  have hq : q = q' := by
    rw [hc] at hc'
    injection hc'
  have hmap : ∀ l : List ℚ, (l.map F64.fin).map F64.toRat = l := by
    intro l
    induction l with
    | nil => rfl
    | cons a l ih => simp only [List.map_cons, F64.toRat, ih]
  have hp : qs.Perm rs := by
    have := List.Perm.map F64.toRat hperm
    rwa [hxs, hys, hmap, hmap] at this
  rw [hsum, hsum', ← hq, hp.sum_eq]

section Single
variable {Node Features Err : Type}

/-- When exactly one tree fails, both strategies return its error. -/
theorem single_failure (exp : F64 → F64)
    (TraverseTree : Node → Features → F64 × Option Err)
    (gbm : GradientBoostedModel Node) (features : Features)
    (pre : List Node) (tree : Node) (post : List Node) (err : Err)
    (messages : List (result Err))
    (hsplit : gbm.Trees = pre ++ tree :: post)
    (hpre : AllSucceed TraverseTree features pre)
    (hpost : AllSucceed TraverseTree features post)
    (herr : (TraverseTree tree features).2 = some err)
    (harr : Arrival TraverseTree features gbm messages) :
    Score exp TraverseTree gbm features = (F64.fin (-1), some err)
      ∧ ScoreConcurrently exp gbm messages = some (F64.fin (-1), some err) := by
  constructor
  · rw [Score, hsplit]
    exact Score.range_first_error exp TraverseTree features tree post err herr pre _ hpre
  · have hfail : ∃ t ∈ gbm.Trees, (TraverseTree t features).2 ≠ none :=
      ⟨tree, by rw [hsplit]; simp, by rw [herr]; simp⟩
    obtain ⟨pre', res, post', err', hm, -, hres, hSC⟩ :=
      ScoreConcurrently.first_message_error exp gbm messages harr.length_eq
        (harr.exists_error_iff.2 hfail)
    have hmem : res ∈ messages := by rw [hm]; simp
    obtain ⟨t, ht, rfl⟩ := (ScoreConcurrently.mem_sent TraverseTree features gbm.Trees res).1
      (harr.mem_iff.1 hmem)
    simp only at hres
    rw [hsplit, List.mem_append, List.mem_cons] at ht
    have : err' = err := by
      rcases ht with h | rfl | h
      · rw [hpre t h] at hres; exact absurd hres (by simp)
      · rw [herr] at hres; exact (Option.some.inj hres).symm
      · rw [hpost t h] at hres; exact absurd hres (by simp)
    rw [hSC, this]

end Single

/-- Trees with a given outcome all succeed when none of the outcomes carries an
error. -/
theorem allSucceed_of_forall (trees : List FixedTree)
    (h : trees.all (fun t => t.2.isNone) = true) :
    AllSucceed FixedTree.TraverseTree () trees := by
  intro t ht
  have := List.all_eq_true.1 h t ht
  exact Option.isNone_iff_eq_none.1 this

theorem logistic_near (exp : F64 → F64) (s : F64) (h : NearExp09 (exp s)) :
    NearSpecScore (logistic exp s) := by
  obtain ⟨x, hx, h1, h2⟩ := h
  unfold logistic
  rw [hx]
  exact F64.div_one_add_near h1 h2

/-! ## Claims -/

section Claims
variable {Node Features Err : Type}

/-- C1: when every tree is traversed without error, `Score` returns no error
and `exp(sum) / (1 + exp(sum))`, where `sum` is `fetchConst` plus the
contributions of the trees accumulated in tree order. In particular, with one
tree contributing the binary64 value `c` and a zero offset, it returns exactly
`exp(c) / (1 + exp(c))` (at `c = -0` the sum is `+0`, and `exp` agrees on
the two zeros). -/
theorem Score_eq_logistic_of_allSucceed (exp : F64 → F64)
    (TraverseTree : Node → Features → F64 × Option Err)
    (gbm : GradientBoostedModel Node) (features : Features)
    (hok : AllSucceed TraverseTree features gbm.Trees) :
    Score exp TraverseTree gbm features
        = (logistic exp (accumulate (fetchConst gbm)
            (contributions TraverseTree features gbm.Trees)), none)
      ∧ ∀ (tree : Node) (c : F64), gbm.Trees = [tree] →
          (TraverseTree tree features).1 = c → (fetchConst gbm).isZero = true →
          c.IsFloat → (c = F64.negZero → exp F64.negZero = exp (F64.fin 0)) →
          Score exp TraverseTree gbm features
            = (F64.div (exp c) (F64.add (F64.fin 1) (exp c)), none) := by
  have hgen := Score.of_allSucceed exp TraverseTree gbm features hok
  refine ⟨hgen, ?_⟩
  intro tree c htrees hc hz hfloat hexp
  rw [hgen, htrees]
  simp only [contributions, List.map_cons, List.map_nil, accumulate, List.foldl_cons,
    List.foldl_nil, hc, logistic]
  rw [F64.zero_add _ _ hz hfloat]
  split_ifs with h
  · rw [h.2, hexp h.2]
  · rfl

/-- C2: `fetchConst` returns `Constant` for version `"4.2"`,
`Target.RescaleConstant` for version `"4.3"`, and `0` for every other version,
the empty string included. -/
theorem fetchConst_by_version (gbm : GradientBoostedModel Node) :
    (gbm.Version = "4.2" → fetchConst gbm = gbm.Constant)
      ∧ (gbm.Version = "4.3" → fetchConst gbm = gbm.Target.RescaleConstant)
      ∧ (gbm.Version ≠ "4.2" → gbm.Version ≠ "4.3" → fetchConst gbm = F64.fin 0)
      ∧ (gbm.Version = "" → fetchConst gbm = F64.fin 0) := by
  refine ⟨?_, ?_, ?_, ?_⟩
  · intro h
    simp [fetchConst, h]
  · intro h
    simp [fetchConst, h]
  · intro h1 h2
    simp [fetchConst, h1, h2]
  · intro h
    simp [fetchConst, h]

/-- C3: when some tree fails, `Score` returns `(-1, e)` where `e` is the error
of the first failing tree in the order of `Trees`; the trees after it can be
replaced by any others without changing the result. -/
theorem Score_first_error (exp : F64 → F64)
    (TraverseTree : Node → Features → F64 × Option Err)
    (gbm : GradientBoostedModel Node) (features : Features)
    (hfail : ∃ tree ∈ gbm.Trees, (TraverseTree tree features).2 ≠ none) :
    ∃ (pre : List Node) (tree : Node) (post : List Node) (err : Err),
      gbm.Trees = pre ++ tree :: post
        ∧ AllSucceed TraverseTree features pre
        ∧ (TraverseTree tree features).2 = some err
        ∧ Score exp TraverseTree gbm features = (F64.fin (-1), some err)
        ∧ ∀ (post' : List Node),
            Score exp TraverseTree { gbm with Trees := pre ++ tree :: post' } features
              = (F64.fin (-1), some err) :=
  Score.first_tree_error exp TraverseTree gbm features hfail

/-- C4, amended: when every tree succeeds, `ScoreConcurrently` returns no error
and the logistic of the float64 sum accumulated in arrival order; this is the
value of `Score` when the results arrive in tree order, and whenever the
accumulations in tree order and in arrival order are both exact. -/
theorem ScoreConcurrently_eq_Score_of_exact (exp : F64 → F64)
    (TraverseTree : Node → Features → F64 × Option Err)
    (gbm : GradientBoostedModel Node) (features : Features) (messages : List (result Err))
    (hok : AllSucceed TraverseTree features gbm.Trees)
    (harr : Arrival TraverseTree features gbm messages) :
    ScoreConcurrently exp gbm messages
        = some (logistic exp (accumulate (fetchConst gbm) (messages.map result.Score)), none)
      ∧ (messages = ScoreConcurrently.sent TraverseTree features gbm.Trees →
          ScoreConcurrently exp gbm messages = some (Score exp TraverseTree gbm features))
      ∧ (SumsExactly (fetchConst gbm) (contributions TraverseTree features gbm.Trees) →
          SumsExactly (fetchConst gbm) (messages.map result.Score) →
          ScoreConcurrently exp gbm messages = some (Score exp TraverseTree gbm features)) := by
  have h1 := Score.of_allSucceed exp TraverseTree gbm features hok
  have h2 := ScoreConcurrently.value_of_allSucceed exp TraverseTree gbm features messages hok harr
  refine ⟨h2, ?_, ?_⟩
  · intro hm
    rw [h2, h1, hm, ScoreConcurrently.sent_scores]
  · intro hx hy
    rw [h2, h1, SumsExactly.eq_of_perm harr.scores_perm hy hx]

/-- C5: when some tree fails, `Score` returns `(-1, err)` and, for every
arrival order, `ScoreConcurrently` returns `(-1, err')` where `err'` is the
error of the first failing result in arrival order; and in every case
`ScoreConcurrently` returns an error exactly when `Score` does. -/
theorem both_strategies_error (exp : F64 → F64)
    (TraverseTree : Node → Features → F64 × Option Err)
    (gbm : GradientBoostedModel Node) (features : Features)
    (messages : List (result Err))
    (harr : Arrival TraverseTree features gbm messages) :
    ((∃ tree ∈ gbm.Trees, (TraverseTree tree features).2 ≠ none) →
        (∃ err, Score exp TraverseTree gbm features = (F64.fin (-1), some err))
          ∧ ∃ (pre : List (result Err)) (res : result Err) (post : List (result Err))
              (err' : Err),
              messages = pre ++ res :: post ∧ (∀ r ∈ pre, r.ErrorName = none)
                ∧ res.ErrorName = some err'
                ∧ ScoreConcurrently exp gbm messages = some (F64.fin (-1), some err'))
      ∧ ((Score exp TraverseTree gbm features).2 ≠ none
          ↔ ∃ v err, ScoreConcurrently exp gbm messages = some (v, some err)) := by
  have hboth : (∃ tree ∈ gbm.Trees, (TraverseTree tree features).2 ≠ none) →
      (∃ err, Score exp TraverseTree gbm features = (F64.fin (-1), some err))
        ∧ ∃ (pre : List (result Err)) (res : result Err) (post : List (result Err))
            (err' : Err),
            messages = pre ++ res :: post ∧ (∀ r ∈ pre, r.ErrorName = none)
              ∧ res.ErrorName = some err'
              ∧ ScoreConcurrently exp gbm messages = some (F64.fin (-1), some err') := by
    intro hfail
    constructor
    · obtain ⟨_, _, _, err, _, _, _, h, _⟩ :=
        Score.first_tree_error exp TraverseTree gbm features hfail
      exact ⟨err, h⟩
    · exact ScoreConcurrently.first_message_error exp gbm messages harr.length_eq
        (harr.exists_error_iff.2 hfail)
  refine ⟨hboth, ?_⟩
  by_cases hfail : ∃ tree ∈ gbm.Trees, (TraverseTree tree features).2 ≠ none
  · obtain ⟨⟨err, h1⟩, _, _, _, err', _, _, _, h2⟩ := hboth hfail
    constructor
    · intro _
      exact ⟨_, err', h2⟩
    · intro _
      simp [h1]
  · have hok : AllSucceed TraverseTree features gbm.Trees := fun t ht => by
      by_contra hne
      exact hfail ⟨t, ht, hne⟩
    have h1 := Score.of_allSucceed exp TraverseTree gbm features hok
    have h2 := ScoreConcurrently.value_of_allSucceed exp TraverseTree gbm features messages hok harr
    constructor
    · intro h
      rw [h1] at h
      exact absurd rfl h
    · rintro ⟨v, err, h⟩
      rw [h2] at h
      simp at h

/-- C6, amended: when every tree succeeds and `exp`, at the accumulated sum,
returns a positive finite binary64 value `x` that `1 + x` does not round back
to, the value returned is strictly between 0 and 1, with no error, in `Score`
(sum in tree order) and in `ScoreConcurrently` (sum in arrival order). -/
theorem Score_in_unit_of_regular (exp : F64 → F64)
    (TraverseTree : Node → Features → F64 × Option Err)
    (gbm : GradientBoostedModel Node) (features : Features) (messages : List (result Err))
    (hok : AllSucceed TraverseTree features gbm.Trees)
    (harr : Arrival TraverseTree features gbm messages) :
    (Regular (exp (accumulate (fetchConst gbm)
          (contributions TraverseTree features gbm.Trees))) →
        ∃ v, Score exp TraverseTree gbm features = (v, none) ∧ InUnit v)
      ∧ (Regular (exp (accumulate (fetchConst gbm) (messages.map result.Score))) →
        ∃ v, ScoreConcurrently exp gbm messages = some (v, none) ∧ InUnit v) := by
  constructor
  · intro h
    exact ⟨_, Score.of_allSucceed exp TraverseTree gbm features hok,
      logistic_of_regular exp _ h⟩
  · intro h
    exact ⟨_, ScoreConcurrently.value_of_allSucceed exp TraverseTree gbm features messages hok harr,
      logistic_of_regular exp _ h⟩

/-- C8, amended: when every tree succeeds, `Score` on a model whose trees are
permuted returns no error and the logistic of the float64 sum accumulated in
the permuted order; this is the value of `Score` on the original model
whenever the accumulations in both orders are exact. -/
theorem Score_perm_of_exact (exp : F64 → F64)
    (TraverseTree : Node → Features → F64 × Option Err)
    (gbm : GradientBoostedModel Node) (features : Features) (trees : List Node)
    (hok : AllSucceed TraverseTree features gbm.Trees)
    (hperm : trees.Perm gbm.Trees) :
    Score exp TraverseTree { gbm with Trees := trees } features
        = (logistic exp (accumulate (fetchConst gbm)
            (contributions TraverseTree features trees)), none)
      ∧ (SumsExactly (fetchConst gbm) (contributions TraverseTree features gbm.Trees) →
          SumsExactly (fetchConst gbm) (contributions TraverseTree features trees) →
          Score exp TraverseTree { gbm with Trees := trees } features
            = Score exp TraverseTree gbm features) := by
  have hok' : AllSucceed TraverseTree features trees := fun t ht => hok t (hperm.mem_iff.1 ht)
  have h1 := Score.of_allSucceed exp TraverseTree gbm features hok
  have h2 : Score exp TraverseTree { gbm with Trees := trees } features
      = (logistic exp (accumulate (fetchConst gbm)
          (contributions TraverseTree features trees)), none) :=
    Score.range_of_allSucceed exp TraverseTree features trees (fetchConst gbm) hok'
  refine ⟨h2, ?_⟩
  intro hx hy
  have hp : (contributions TraverseTree features trees).Perm
      (contributions TraverseTree features gbm.Trees) := List.Perm.map _ hperm
  rw [h2, h1, SumsExactly.eq_of_perm hp hy hx]

end Claims

/-- C9, amended: for the model with version `"4.3"`, rescale constant `0.1`
(any `Constant`) and two trees contributing `0.5` and `0.3`, the float64 sum
accumulated by `Score`, and by `ScoreConcurrently` when the results arrive in
tree order, is `0.8999999999999999`; when they arrive in the other order it is
the float64 nearest `0.9`. Each call returns no error and
`exp(s) / (1 + exp(s))` at its own sum `s`, a value within `1e-9` of
`0.7109495026` whenever `exp(s)` is within `1e-9` of `2.459603111`. -/
theorem specExample_scores (exp : F64 → F64) (constant : F64) :
    accumulate (fetchConst (specExample constant))
        (contributions FixedTree.TraverseTree () (specExample constant).Trees)
        = F64.fin (2026619832316723 / 2251799813685248)
      ∧ F64.rne (9 / 10) = F64.fin (8106479329266893 / 9007199254740992)
      ∧ Score exp FixedTree.TraverseTree (specExample constant) ()
          = (logistic exp (F64.fin (2026619832316723 / 2251799813685248)), none)
      ∧ ScoreConcurrently exp (specExample constant) specArrival
          = some (logistic exp (F64.fin (2026619832316723 / 2251799813685248)), none)
      ∧ ScoreConcurrently exp (specExample constant) specArrivalReversed
          = some (logistic exp (F64.fin (8106479329266893 / 9007199254740992)), none)
      ∧ (NearExp09 (exp (F64.fin (2026619832316723 / 2251799813685248))) →
          NearSpecScore (logistic exp (F64.fin (2026619832316723 / 2251799813685248))))
      ∧ (NearExp09 (exp (F64.fin (8106479329266893 / 9007199254740992))) →
          NearSpecScore (logistic exp (F64.fin (8106479329266893 / 9007199254740992)))) := by
  have ht : (specExample constant).Trees
      = [(F64.rne (1 / 2), none), (F64.rne (3 / 10), none)] := rfl
  have hc : fetchConst (specExample constant) = F64.rne (1 / 10) := rfl
  have hok : AllSucceed FixedTree.TraverseTree () (specExample constant).Trees := by
    rw [ht]
    exact allSucceed_of_forall _ (by decide)
  have harrA : Arrival FixedTree.TraverseTree () (specExample constant) specArrival := by
    unfold Arrival
    rw [ht]
    decide!
  have harrB : Arrival FixedTree.TraverseTree () (specExample constant)
      specArrivalReversed := by
    unfold Arrival
    rw [ht]
    decide!
  have hs1 : accumulate (F64.rne (1 / 10))
      (contributions FixedTree.TraverseTree () (specExample constant).Trees)
      = F64.fin (2026619832316723 / 2251799813685248) := by
    rw [ht]
    decide!
  have hA : accumulate (F64.rne (1 / 10)) (specArrival.map result.Score)
      = F64.fin (2026619832316723 / 2251799813685248) := by decide!
  have hB : accumulate (F64.rne (1 / 10)) (specArrivalReversed.map result.Score)
      = F64.fin (8106479329266893 / 9007199254740992) := by decide!
  refine ⟨by rw [hc]; exact hs1, by decide!, ?_, ?_, ?_, logistic_near exp _, logistic_near exp _⟩
  · rw [Score.of_allSucceed exp FixedTree.TraverseTree (specExample constant) () hok, hc, hs1]
  · rw [ScoreConcurrently.value_of_allSucceed exp FixedTree.TraverseTree (specExample constant) () _ hok
      harrA, hc, hA]
  · rw [ScoreConcurrently.value_of_allSucceed exp FixedTree.TraverseTree (specExample constant) () _ hok
      harrB, hc, hB]

/-- C10: with two trees failing with different errors, the results can arrive
in an order for which `ScoreConcurrently` returns the second tree's error
while `Score` returns the first tree's; when exactly one tree fails, both
return that tree's error for every arrival order. -/
theorem ScoreConcurrently_error_depends_on_arrival :
    (∀ exp : F64 → F64,
        Arrival FixedTree.TraverseTree () twoFailures twoFailuresArrival
          ∧ Score exp FixedTree.TraverseTree twoFailures ()
              = (F64.fin (-1), some "MissingFeature")
          ∧ ScoreConcurrently exp twoFailures twoFailuresArrival
              = some (F64.fin (-1), some "TypeMismatch"))
      ∧ ∀ (Node Features Err : Type) (exp : F64 → F64)
          (TraverseTree : Node → Features → F64 × Option Err)
          (gbm : GradientBoostedModel Node) (features : Features)
          (pre : List Node) (tree : Node) (post : List Node) (err : Err)
          (messages : List (result Err)),
          gbm.Trees = pre ++ tree :: post →
          AllSucceed TraverseTree features pre →
          AllSucceed TraverseTree features post →
          (TraverseTree tree features).2 = some err →
          Arrival TraverseTree features gbm messages →
          Score exp TraverseTree gbm features = (F64.fin (-1), some err)
            ∧ ScoreConcurrently exp gbm messages = some (F64.fin (-1), some err) := by
  refine ⟨fun exp => ⟨?_, rfl, rfl⟩, ?_⟩
  · unfold Arrival
    decide!
  · intro Node Features Err exp TraverseTree gbm features pre tree post err messages
      hsplit hpre hpost herr harr
    exact single_failure exp TraverseTree gbm features pre tree post err messages
      hsplit hpre hpost herr harr

/-! ## Instances of the claims -/

/-- Instance of C1: one tree contributing `0.5`, zero offset. -/
theorem Score_eq_logistic_of_allSucceed_witness :
    AllSucceed FixedTree.TraverseTree () singleTree.Trees
      ∧ Score expRef FixedTree.TraverseTree singleTree ()
          = (F64.div (expRef (F64.fin (1 / 2)))
              (F64.add (F64.fin 1) (expRef (F64.fin (1 / 2)))), none) :=
  ⟨allSucceed_of_forall _ (by decide),
    (Score_eq_logistic_of_allSucceed expRef FixedTree.TraverseTree singleTree ()
      (allSucceed_of_forall _ (by decide))).2 (F64.fin (1 / 2), none) (F64.fin (1 / 2))
      rfl rfl (by decide!) (by decide!) (fun h => F64.noConfusion h)⟩

/-- Instance of C2: constant `2`, rescale constant `3`, four versions. -/
theorem fetchConst_by_version_witness :
    fetchConst (versionModel "4.2") = F64.fin 2
      ∧ fetchConst (versionModel "4.3") = F64.fin 3
      ∧ fetchConst (versionModel "4.4") = F64.fin 0
      ∧ fetchConst (versionModel "") = F64.fin 0 :=
  ⟨(fetchConst_by_version (versionModel "4.2")).1 rfl,
    (fetchConst_by_version (versionModel "4.3")).2.1 rfl,
    (fetchConst_by_version (versionModel "4.4")).2.2.1 (by decide) (by decide),
    (fetchConst_by_version (versionModel "")).2.2.2 rfl⟩

/-- Instance of C3: the second of three trees fails. -/
theorem Score_first_error_witness :
    ∃ (pre : List FixedTree) (tree : FixedTree) (post : List FixedTree) (err : String),
      singleFailure.Trees = pre ++ tree :: post
        ∧ AllSucceed FixedTree.TraverseTree () pre
        ∧ (FixedTree.TraverseTree tree ()).2 = some err
        ∧ Score expRef FixedTree.TraverseTree singleFailure () = (F64.fin (-1), some err)
        ∧ ∀ (post' : List FixedTree),
            Score expRef FixedTree.TraverseTree
                { singleFailure with Trees := pre ++ tree :: post' } ()
              = (F64.fin (-1), some err) :=
  Score_first_error expRef FixedTree.TraverseTree singleFailure ()
    ⟨(F64.fin 0, some "MissingFeature"), by decide!, by decide⟩

/-- Instance of C4, amended: exact sums, results arriving in reverse order. -/
theorem ScoreConcurrently_eq_Score_of_exact_witness :
    AllSucceed FixedTree.TraverseTree () exactModel.Trees
      ∧ Arrival FixedTree.TraverseTree () exactModel exactArrival
      ∧ ScoreConcurrently expRef exactModel exactArrival
          = some (Score expRef FixedTree.TraverseTree exactModel ()) :=
  ⟨allSucceed_of_forall _ (by decide), by unfold Arrival; decide!,
    (ScoreConcurrently_eq_Score_of_exact expRef FixedTree.TraverseTree exactModel ()
      exactArrival (allSucceed_of_forall _ (by decide)) (by unfold Arrival; decide!)).2.2
      ⟨1 / 8, [1 / 2, 1 / 4, -1], by decide!, by decide!, by decide!⟩
      ⟨1 / 8, [-1, 1 / 4, 1 / 2], by decide!, by decide!, by decide!⟩⟩

/-- Counterexample to C4: contributions `1e16`, `1`, `-1e16` (binary64 values)
with offset `0`.
In tree order the sum is `0` and `Score` returns `0.5`; when the results
arrive in the order `1e16`, `-1e16`, `1` the sum is `1` and
`ScoreConcurrently` returns `0.7310585786300049`. -/
theorem ScoreConcurrently_ne_Score :
    AllSucceed FixedTree.TraverseTree () cancelModel.Trees
      ∧ (∀ t ∈ cancelModel.Trees, t.1.IsFloat)
      ∧ Arrival FixedTree.TraverseTree () cancelModel cancelArrival
      ∧ (∀ exp : F64 → F64,
          Score exp FixedTree.TraverseTree cancelModel () = (logistic exp (F64.fin 0), none)
            ∧ ScoreConcurrently exp cancelModel cancelArrival
                = some (logistic exp (F64.fin 1), none))
      ∧ Score expRef FixedTree.TraverseTree cancelModel () = (F64.fin (1 / 2), none)
      ∧ ScoreConcurrently expRef cancelModel cancelArrival
          = some (F64.fin (6584790284608189 / 9007199254740992), none)
      ∧ ScoreConcurrently expRef cancelModel cancelArrival
          ≠ some (Score expRef FixedTree.TraverseTree cancelModel ()) := by
  have hok : AllSucceed FixedTree.TraverseTree () cancelModel.Trees :=
    allSucceed_of_forall _ (by decide)
  have harr : Arrival FixedTree.TraverseTree () cancelModel cancelArrival := by
    unfold Arrival; decide!
  refine ⟨hok, by decide!, harr, ?_, by decide!, by decide!, by decide!⟩
  intro exp
  constructor
  · rw [Score.of_allSucceed exp FixedTree.TraverseTree cancelModel () hok]
    have : accumulate (fetchConst cancelModel)
        (contributions FixedTree.TraverseTree () cancelModel.Trees) = F64.fin 0 := by decide!
    rw [this]
  · rw [ScoreConcurrently.value_of_allSucceed exp FixedTree.TraverseTree cancelModel () _ hok harr]
    have : accumulate (fetchConst cancelModel) (cancelArrival.map result.Score)
        = F64.fin 1 := by decide!
    rw [this]

/-- Instance of C5: the second of three trees fails, results arriving in
reverse order. -/
theorem both_strategies_error_witness :
    Arrival FixedTree.TraverseTree () singleFailure singleFailureArrival
      ∧ (∃ err, Score expRef FixedTree.TraverseTree singleFailure ()
          = (F64.fin (-1), some err))
      ∧ ∃ (pre : List (result String)) (res : result String) (post : List (result String))
          (err' : String),
          singleFailureArrival = pre ++ res :: post ∧ (∀ r ∈ pre, r.ErrorName = none)
            ∧ res.ErrorName = some err'
            ∧ ScoreConcurrently expRef singleFailure singleFailureArrival
                = some (F64.fin (-1), some err') :=
  ⟨by unfold Arrival; decide!,
    (both_strategies_error expRef FixedTree.TraverseTree singleFailure ()
      singleFailureArrival (by unfold Arrival; decide!)).1
      ⟨(F64.fin 0, some "MissingFeature"), by decide!, by decide⟩⟩

/-- Instance of C6, amended: the example of the specification with the
reference exponential. -/
theorem Score_in_unit_of_regular_witness :
    ∃ v, Score expRef FixedTree.TraverseTree (specExample (F64.fin 0)) () = (v, none)
      ∧ InUnit v :=
  (Score_in_unit_of_regular expRef FixedTree.TraverseTree (specExample (F64.fin 0)) ()
    specArrival (allSucceed_of_forall _ (by decide)) (by unfold Arrival; decide!)).1
    ⟨5538533827442875 / 2251799813685248, by decide!, by norm_num, by decide!, by decide!⟩

/-- Counterexample to C6: one tree contributing `40`, offset `0`. The sum `40`
is finite and `exp(40)` does not overflow: it is about `2.35e17`, and for
every binary64 value `x` from `2 ^ 54` on (`235385266837020000` is one) `1 + x`
rounds back to `x`, so `Score` and `ScoreConcurrently` return exactly `1`.
With one tree contributing `-800`, `exp` underflows to `0` and `Score` returns
exactly `0`. -/
theorem Score_finite_sum_saturates :
    AllSucceed FixedTree.TraverseTree () saturateOne.Trees
      ∧ (∀ t ∈ saturateOne.Trees, t.1.IsFloat)
      ∧ Arrival FixedTree.TraverseTree () saturateOne saturateArrival
      ∧ accumulate (fetchConst saturateOne)
          (contributions FixedTree.TraverseTree () saturateOne.Trees) = F64.fin 40
      ∧ ((F64.fin 235385266837020000).IsFloat ∧ (2 : ℚ) ^ 54 ≤ 235385266837020000)
      ∧ (∀ (exp : F64 → F64) (x : ℚ), exp (F64.fin 40) = F64.fin x →
          (F64.fin x).IsFloat → (2 : ℚ) ^ 54 ≤ x →
          Score exp FixedTree.TraverseTree saturateOne () = (F64.fin 1, none)
            ∧ ScoreConcurrently exp saturateOne saturateArrival = some (F64.fin 1, none))
      ∧ ¬ InUnit (F64.fin 1)
      ∧ AllSucceed FixedTree.TraverseTree () underflowOne.Trees
      ∧ (∀ t ∈ underflowOne.Trees, t.1.IsFloat)
      ∧ accumulate (fetchConst underflowOne)
          (contributions FixedTree.TraverseTree () underflowOne.Trees) = F64.fin (-800)
      ∧ (∀ exp : F64 → F64, exp (F64.fin (-800)) = F64.fin 0 →
          Score exp FixedTree.TraverseTree underflowOne () = (F64.fin 0, none))
      ∧ Score expRef FixedTree.TraverseTree underflowOne () = (F64.fin 0, none)
      ∧ ¬ InUnit (Score expRef FixedTree.TraverseTree underflowOne ()).1 := by
  have hok : AllSucceed FixedTree.TraverseTree () saturateOne.Trees :=
    allSucceed_of_forall _ (by decide)
  have harr : Arrival FixedTree.TraverseTree () saturateOne saturateArrival := by
    unfold Arrival; decide!
  have hs : accumulate (fetchConst saturateOne)
      (contributions FixedTree.TraverseTree () saturateOne.Trees) = F64.fin 40 := by decide!
  have hs' : accumulate (fetchConst saturateOne) (saturateArrival.map result.Score)
      = F64.fin 40 := by decide!
  have hok0 : AllSucceed FixedTree.TraverseTree () underflowOne.Trees :=
    allSucceed_of_forall _ (by decide)
  have hs0 : accumulate (fetchConst underflowOne)
      (contributions FixedTree.TraverseTree () underflowOne.Trees) = F64.fin (-800) := by
    decide!
  have hall0 : ∀ exp : F64 → F64, exp (F64.fin (-800)) = F64.fin 0 →
      Score exp FixedTree.TraverseTree underflowOne () = (F64.fin 0, none) := by
    intro exp hexp
    rw [Score.of_allSucceed exp FixedTree.TraverseTree underflowOne () hok0, hs0,
      logistic_of_zero exp _ hexp]
  have href := hall0 expRef (by decide!)
  refine ⟨hok, by decide!, harr, hs, ⟨by decide!, by norm_num⟩, ?_, ?_, hok0, by decide!, hs0,
    hall0, href, ?_⟩
  · intro exp x hexp hf hx
    constructor
    · rw [Score.of_allSucceed exp FixedTree.TraverseTree saturateOne () hok, hs,
        logistic_of_absorbed exp _ x hexp hf hx]
    · rw [ScoreConcurrently.value_of_allSucceed exp FixedTree.TraverseTree saturateOne () _ hok
        harr, hs', logistic_of_absorbed exp _ x hexp hf hx]
  · rintro ⟨z, hz, -, hlt⟩
    have : (1 : ℚ) = z := by injection hz
    linarith
  · rw [href]
    rintro ⟨z, hz, hpos, -⟩
    have : (0 : ℚ) = z := by injection hz
    linarith

/-- C7, the code at the failing input: two trees contributing `400` each,
offset `0`. Every tree succeeds and the sum is `800`; `exp(800)` overflows to
`+Inf`, and both `Score` and `ScoreConcurrently` return NaN
(`+Inf / (1 + +Inf)`) with no error, where the claim has a value
approaching 1. -/
theorem Score_overflow_is_nan :
    AllSucceed FixedTree.TraverseTree () overflowTwo.Trees
      ∧ (∀ t ∈ overflowTwo.Trees, t.1.IsFloat)
      ∧ Arrival FixedTree.TraverseTree () overflowTwo overflowArrival
      ∧ accumulate (fetchConst overflowTwo)
          (contributions FixedTree.TraverseTree () overflowTwo.Trees) = F64.fin 800
      ∧ accumulate (fetchConst overflowTwo) (overflowArrival.map result.Score) = F64.fin 800
      ∧ (∀ exp : F64 → F64, exp (F64.fin 800) = F64.inf false →
          Score exp FixedTree.TraverseTree overflowTwo () = (F64.nan, none)
            ∧ ScoreConcurrently exp overflowTwo overflowArrival = some (F64.nan, none))
      ∧ expRef (F64.fin 800) = F64.inf false
      ∧ Score expRef FixedTree.TraverseTree overflowTwo () = (F64.nan, none)
      ∧ ScoreConcurrently expRef overflowTwo overflowArrival = some (F64.nan, none) := by
  have hok : AllSucceed FixedTree.TraverseTree () overflowTwo.Trees :=
    allSucceed_of_forall _ (by decide)
  have harr : Arrival FixedTree.TraverseTree () overflowTwo overflowArrival := by
    unfold Arrival; decide!
  have hs : accumulate (fetchConst overflowTwo)
      (contributions FixedTree.TraverseTree () overflowTwo.Trees) = F64.fin 800 := by decide!
  have hs' : accumulate (fetchConst overflowTwo) (overflowArrival.map result.Score)
      = F64.fin 800 := by decide!
  refine ⟨hok, by decide!, harr, hs, hs', ?_, by decide!, by decide!, by decide!⟩
  intro exp hexp
  constructor
  · rw [Score.of_allSucceed exp FixedTree.TraverseTree overflowTwo () hok, hs,
      logistic_of_inf exp _ hexp]
  · rw [ScoreConcurrently.value_of_allSucceed exp FixedTree.TraverseTree overflowTwo () _ hok
      harr, hs', logistic_of_inf exp _ hexp]

/-- Instance of C8, amended: exact sums, trees in reverse order. -/
theorem Score_perm_of_exact_witness :
    exactPermuted.Perm exactModel.Trees
      ∧ Score expRef FixedTree.TraverseTree { exactModel with Trees := exactPermuted } ()
          = Score expRef FixedTree.TraverseTree exactModel () :=
  ⟨by decide!,
    (Score_perm_of_exact expRef FixedTree.TraverseTree exactModel () exactPermuted
      (allSucceed_of_forall _ (by decide)) (by decide!)).2
      ⟨1 / 8, [1 / 2, 1 / 4, -1], by decide!, by decide!, by decide!⟩
      ⟨1 / 8, [-1, 1 / 4, 1 / 2], by decide!, by decide!, by decide!⟩⟩

/-- Counterexample to C8: contributions `2 ^ 60`, `1`, `-2 ^ 60` (binary64
values) with offset `0`. In this order the sum is `0` and `Score` returns `0.5`; with the trees in
the order `2 ^ 60`, `-2 ^ 60`, `1` the sum is `1` and `Score` returns
`0.7310585786300049`. -/
theorem Score_perm_ne :
    AllSucceed FixedTree.TraverseTree () absorbModel.Trees
      ∧ (∀ t ∈ absorbModel.Trees, t.1.IsFloat)
      ∧ absorbPermuted.Perm absorbModel.Trees
      ∧ Score expRef FixedTree.TraverseTree absorbModel () = (F64.fin (1 / 2), none)
      ∧ Score expRef FixedTree.TraverseTree { absorbModel with Trees := absorbPermuted } ()
          = (F64.fin (6584790284608189 / 9007199254740992), none)
      ∧ ∀ exp : F64 → F64,
          Score exp FixedTree.TraverseTree absorbModel () = (logistic exp (F64.fin 0), none)
            ∧ Score exp FixedTree.TraverseTree { absorbModel with Trees := absorbPermuted } ()
                = (logistic exp (F64.fin 1), none) := by
  have hok : AllSucceed FixedTree.TraverseTree () absorbModel.Trees :=
    allSucceed_of_forall _ (by decide)
  refine ⟨hok, by decide!, by decide!, by decide!, by decide!, ?_⟩
  intro exp
  constructor
  · rw [Score.of_allSucceed exp FixedTree.TraverseTree absorbModel () hok]
    have : accumulate (fetchConst absorbModel)
        (contributions FixedTree.TraverseTree () absorbModel.Trees) = F64.fin 0 := by decide!
    rw [this]
  · have hok' : AllSucceed FixedTree.TraverseTree () absorbPermuted :=
      allSucceed_of_forall _ (by decide)
    rw [Score, Score.range_of_allSucceed exp FixedTree.TraverseTree () _ _ hok']
    have : accumulate (fetchConst { absorbModel with Trees := absorbPermuted })
        (contributions FixedTree.TraverseTree () absorbPermuted) = F64.fin 1 := by decide!
    rw [this]

/-- Instance of C9, amended: the reference exponential is within `1e-9` of
`2.459603111` at both sums. -/
theorem specExample_scores_witness :
    NearSpecScore (logistic expRef (F64.fin (2026619832316723 / 2251799813685248)))
      ∧ NearSpecScore (logistic expRef (F64.fin (8106479329266893 / 9007199254740992))) :=
  ⟨(specExample_scores expRef (F64.fin 7)).2.2.2.2.2.1
      ⟨5538533827442875 / 2251799813685248, by decide!, by norm_num, by norm_num⟩,
    (specExample_scores expRef (F64.fin 7)).2.2.2.2.2.2
      ⟨1384633456860719 / 562949953421312, by decide!, by norm_num, by norm_num⟩⟩

/-- Counterexample to C9: the sum accumulated by `Score` on the example of the
specification is `0.8999999999999999`, neither the number `0.9` nor the
float64 nearest it; with the reference exponential `Score` does not return
`exp(0.9) / (1 + exp(0.9))`, and `ScoreConcurrently`, with the results
arriving in the order `0.3`, `0.5`, does not return what `Score` returns. -/
theorem specExample_sum_ne :
    (∀ t ∈ (specExample (F64.fin 0)).Trees, t.1.IsFloat)
      ∧ (fetchConst (specExample (F64.fin 0))).IsFloat
      ∧ accumulate (fetchConst (specExample (F64.fin 0)))
        (contributions FixedTree.TraverseTree () (specExample (F64.fin 0)).Trees)
        ≠ F64.rne (9 / 10)
      ∧ accumulate (fetchConst (specExample (F64.fin 0)))
        (contributions FixedTree.TraverseTree () (specExample (F64.fin 0)).Trees)
        ≠ F64.fin (9 / 10)
      ∧ Score expRef FixedTree.TraverseTree (specExample (F64.fin 0)) ()
        ≠ (logistic expRef (F64.rne (9 / 10)), none)
      ∧ ScoreConcurrently expRef (specExample (F64.fin 0)) specArrivalReversed
        ≠ some (Score expRef FixedTree.TraverseTree (specExample (F64.fin 0)) ()) :=
  ⟨by decide!, by decide!, by decide!, by decide!, by decide!, by decide!⟩

/-- Instance of C10: the second of three trees fails, results arriving in
reverse order. -/
theorem ScoreConcurrently_error_depends_on_arrival_witness :
    Score expRef FixedTree.TraverseTree singleFailure () = (F64.fin (-1), some "MissingFeature")
      ∧ ScoreConcurrently expRef singleFailure singleFailureArrival
          = some (F64.fin (-1), some "MissingFeature") :=
  ScoreConcurrently_error_depends_on_arrival.2 FixedTree Unit String expRef
    FixedTree.TraverseTree singleFailure () [(F64.fin 1, none)]
    (F64.fin 0, some "MissingFeature") [(F64.fin 2, none)] "MissingFeature"
    singleFailureArrival rfl (allSucceed_of_forall _ (by decide))
    (allSucceed_of_forall _ (by decide)) rfl (by unfold Arrival; decide!)

end Goscore
